import Mathlib

/-!
# Verification of the `enc` binary serialization package

A shallow embedding of the `enc` Go package: a compact binary encoder/decoder
driven by a per-type "machine" registry (`types.go`), with varint-based
primitive I/O (`encode.go`, `decode.go`).

Modelling conventions:
* Go types are modelled by the inductive `Ty` (field names and widths are
  erased: every signed integer kind is `Ty.int`, every unsigned kind is
  `Ty.uint`; `Ty.bytes` is the `[]byte` fast path, `Ty.func` stands for a
  type with no structural case and no `BinaryMarshaler` capability).
  Floating-point and complex kinds (raw IEEE bit patterns routed through the
  unsigned varint path) are not modelled. `Ty` is a finite tree, so the
  recursive-type placeholder (`recurseMachine`) is unobservable and the
  registry model is sequential.
* Go values are modelled by `Val`.  Nil references get their own
  constructors (`sliceNil`, `mapNil`, `ptrNil`, `chanNil`, `ifaceNil`,
  `bytesNil`) so that nil and empty are distinguished exactly as
  `reflect.DeepEqual` distinguishes them.  A channel value records its
  capacity, its buffered/pending elements and whether it is closed.
* Byte streams are `List Nat` (each entry < 256 for well-formed data).
* Failures are explicit values of type `Fail`; the constructors that the
  Go code wraps in `noPanic` (and the entry points `recover` and return)
  are marked by `Fail.returned`, the rest model panics that escape the
  entry points, plus `Fail.diverge` for operations that block forever.
-/

namespace Enc

/-- Go type shapes, as walked by `_types.register`. -/
inductive Ty : Type where
  | bool | int | uint | str | bytes
  | array (n : Nat) (elem : Ty)
  | slice (elem : Ty)
  | mapT (key val : Ty)
  | ptr (elem : Ty)
  | chan (elem : Ty)
  | iface
  | structT (fields : List Ty)
  | func
deriving Repr

/-- Go values of the shapes in `Ty`. -/
inductive Val : Type where
  | bool (b : Bool)
  | int (i : Int)
  | uint (u : Nat)
  | str (bs : List Nat)
  | bytesNil
  | bytes (bs : List Nat)
  | array (es : List Val)
  | sliceNil
  | slice (es : List Val)
  | mapNil
  | mapV (es : List (Val × Val))
  | ptrNil
  | ptr (p : Val)
  | chanNil
  | chan (cap : Nat) (buf : List Val) (closed : Bool)
  | ifaceNil
  | iface (dt : Ty) (dv : Val)
  | structV (fs : List Val)
  | fn
deriving Repr

/-- Failure conditions.  The first three are the error values wrapped in
`noPanic` by the I/O layer (`io.EOF`, `io.ErrUnexpectedEOF`, varint
overflow); the remaining ones model panics that are not recovered by the
entry points, and `diverge` marks operations that block forever. -/
inductive Fail : Type where
  | eof
  | unexpectedEOF
  | overflow
  | setPanic        -- reflect.Value.Set* on an unaddressable value
  | nilValuePanic   -- reflect.Value.Type on the zero Value (nil interface destination)
  | sendClosedPanic -- send on a closed channel
  | diverge         -- blocking receive/send that never completes
deriving Repr, DecidableEq

/-- Which failures are `noPanic`-wrapped errors, returned by the entry
points; the rest escape as panics. -/
def Fail.returned : Fail → Bool
  | .eof | .unexpectedEOF | .overflow => true
  | _ => false

abbrev Res (α : Type) := Except Fail α

/-! ## Primitive I/O layer

`binary.PutUvarint` / `binary.ReadUvarint` / `binary.PutVarint` /
`binary.ReadVarint` and the `decoder` read helpers, modelled on byte
lists.  Bitwise operations on disjoint ranges are written with `%`, `/`,
`*` and `+` (`x | b<<s` with `b < 0x80` and `x < 2^s` is
`x + b * 2^s`, `b & 0x7f` is `b % 128`, `x >> 7` is `x / 128`). -/

/-- `binary.PutUvarint`: little-endian 7-bit groups, continuation bit 0x80. -/
def putUvarint (x : Nat) : List Nat :=
  if h : x < 128 then [x]
  else (x % 128 + 128) :: putUvarint (x / 128)
decreasing_by exact Nat.div_lt_self (by omega) (by omega)

/-- Zig-zag mapping of `binary.PutVarint`:
`ux := uint64(x) << 1; if x < 0 { ux = ^ux }`. -/
def zigzag (i : Int) : Nat :=
  if 0 ≤ i then (2 * i).toNat else (-(2 * i) - 1).toNat

/-- `binary.PutVarint`: zig-zag then unsigned varint. -/
def putVarint (i : Int) : List Nat := putUvarint (zigzag i)

/-- Inverse zig-zag of `binary.ReadVarint`:
`x := int64(ux >> 1); if ux&1 != 0 { x = ^x }`. -/
def unzigzag (u : Nat) : Int :=
  if u % 2 = 0 then (u / 2 : Nat) else -(u / 2 : Nat) - 1

/-- `decoder.readByte`: a `ReadByte` at end of stream yields `io.EOF`. -/
def readByte (s : List Nat) : Res (Nat × List Nat) :=
  match s with
  | [] => .error .eof
  | b :: s => .ok (b, s)

/-- The loop of `binary.ReadUvarint`; `rem` counts the remaining
iterations out of `MaxVarintLen64 = 10`, so the loop index is
`i = 10 - rem` (`i > 0` iff `rem < 10`, `i = MaxVarintLen64-1` iff
`rem = 1`). -/
def readUvarintLoop : Nat → Nat → Nat → List Nat → Res (Nat × List Nat)
  | 0, _, _, _ => .error .overflow
  | rem + 1, x, sh, s =>
    match s with
    | [] => .error (if rem + 1 < 10 then .unexpectedEOF else .eof)
    | b :: s =>
      if b < 128 then
        if rem = 0 && b > 1 then .error .overflow
        else .ok (x + b * 2 ^ sh, s)
      else
        readUvarintLoop rem (x + b % 128 * 2 ^ sh) (sh + 7) s

/-- `binary.ReadUvarint`. -/
def readUvarint (s : List Nat) : Res (Nat × List Nat) :=
  readUvarintLoop 10 0 0 s

/-- `binary.ReadVarint`. -/
def readVarint (s : List Nat) : Res (Int × List Nat) :=
  match readUvarint s with
  | .error e => .error e
  | .ok (u, s) => .ok (unzigzag u, s)

/-- `decoder.read`: `io.ReadFull` of `size` bytes; any shortfall is
reported as `io.ErrUnexpectedEOF` (the `io.EOF` case is remapped). -/
def readFull (size : Nat) (s : List Nat) : Res (List Nat × List Nat) :=
  if size ≤ s.length then .ok (s.take size, s.drop size)
  else .error .unexpectedEOF

/-! ## Type predicates of the registry -/

mutual
/-- `reflect.Type.Comparable`, as used by `_types.register` to decide
whether to wrap the machine in a `compareMachine`. -/
def tcomparable : Ty → Bool
  | .bool | .int | .uint | .str => true
  | .array _ e => tcomparable e
  | .bytes | .slice _ | .mapT _ _ => false
  | .ptr _ | .chan _ | .iface => true
  | .structT ts => tcomparableList ts
  | .func => false
/-- All field types comparable. -/
def tcomparableList : List Ty → Bool
  | [] => true
  | t :: ts => tcomparable t && tcomparableList ts
end

mutual
/-- `reflect.Zero(t)`: the zero value of a type. -/
def zeroVal : Ty → Val
  | .bool => .bool false
  | .int => .int 0
  | .uint => .uint 0
  | .str => .str []
  | .bytes => .bytesNil
  | .array n e => .array (List.replicate n (zeroVal e))
  | .slice _ => .sliceNil
  | .mapT _ _ => .mapNil
  | .ptr _ => .ptrNil
  | .chan _ => .chanNil
  | .iface => .ifaceNil
  | .structT ts => .structV (zeroValList ts)
  | .func => .fn
/-- Zero values of a field list. -/
def zeroValList : List Ty → List Val
  | [] => []
  | t :: ts => zeroVal t :: zeroValList ts
end

mutual
/-- Go `==` against the zero value (`compareMachine.encode`'s
`m.z == v.Interface()`): numbers by value, strings by contents,
references by identity with nil (a non-nil reference never equals nil),
arrays and structs elementwise. -/
def isZero : Ty → Val → Bool
  | .bool, .bool b => !b
  | .int, .int i => i == 0
  | .uint, .uint u => u == 0
  | .str, .str bs => bs.isEmpty
  | .array _ e, .array es => isZeroList e es
  | .ptr _, .ptrNil => true
  | .chan _, .chanNil => true
  | .iface, .ifaceNil => true
  | .structT ts, .structV vs => isZeroFields ts vs
  | _, _ => false
/-- All array elements zero. -/
def isZeroList : Ty → List Val → Bool
  | _, [] => true
  | e, v :: vs => isZero e v && isZeroList e vs
/-- All struct fields zero. -/
def isZeroFields : List Ty → List Val → Bool
  | [], [] => true
  | t :: ts, v :: vs => isZero t v && isZeroFields ts vs
  | _, _ => false
end

mutual
/-- Well-typed values: the value has the shape of the type and all
integers fit the 64-bit wire bounds of the Go implementation. -/
def wf : Ty → Val → Bool
  | .bool, .bool _ => true
  | .int, .int i => -(2 ^ 63) ≤ i && i < 2 ^ 63
  | .uint, .uint u => u < 2 ^ 64
  | .str, .str bs => bs.all (· < 256) && bs.length < 2 ^ 64
  | .bytes, .bytesNil => true
  | .bytes, .bytes bs => bs.all (· < 256) && bs.length < 2 ^ 64
  | .array n e, .array es => es.length == n && n < 2 ^ 64 && wfList e es
  | .slice _, .sliceNil => true
  | .slice e, .slice es => es.length < 2 ^ 64 && wfList e es
  | .mapT _ _, .mapNil => true
  | .mapT k v, .mapV es => es.length < 2 ^ 64 && wfEntries k v es
  | .ptr _, .ptrNil => true
  | .ptr e, .ptr p => wf e p
  | .chan _, .chanNil => true
  | .chan e, .chan _ buf _ => buf.length < 2 ^ 64 && wfList e buf
  | .iface, .ifaceNil => true
  | .iface, .iface dt dv => wf dt dv
  | .structT ts, .structV vs => ts.length < 2 ^ 64 && wfFields ts vs
  | _, _ => false
/-- All list elements well-typed. -/
def wfList : Ty → List Val → Bool
  | _, [] => true
  | e, v :: vs => wf e v && wfList e vs
/-- All map entries well-typed. -/
def wfEntries : Ty → Ty → List (Val × Val) → Bool
  | _, _, [] => true
  | k, v, (kv, vv) :: es => wf k kv && wf v vv && wfEntries k v es
/-- Struct fields well-typed, same length as the field-type list. -/
def wfFields : List Ty → List Val → Bool
  | [], [] => true
  | t :: ts, v :: vs => wf t v && wfFields ts vs
  | _, _ => false
end

/-! ## Size measures

Computable size functions on `Ty` and `Val`, used as termination measures
for the decoder (whose recursion follows the machine graph: through the
element type for fresh destinations, and through the destination value
for pre-populated interface destinations).  `tsize` gives a channel type
the weight of its element-slice type as well, mirroring the extra
registration `chanMachine` performs. -/

mutual
/-- Structural weight of a type. -/
def tsize : Ty → Nat
  | .bool | .int | .uint | .str | .bytes | .iface | .func => 1
  | .array _ e => 1 + tsize e
  | .slice e => 1 + tsize e
  | .mapT k v => 1 + tsize k + tsize v
  | .ptr e => 1 + tsize e
  | .chan e => 3 + tsize e
  | .structT ts => 1 + tsizeList ts
/-- Structural weight of a field-type list. -/
def tsizeList : List Ty → Nat
  | [] => 0
  | t :: ts => 1 + tsize t + tsizeList ts
end

mutual
/-- Structural weight of a value (an interface value also weighs its
dynamic type, which the decoder recurses into). -/
def vsize : Val → Nat
  | .bool _ | .int _ | .uint _ | .str _ | .bytesNil | .bytes _ => 1
  | .array es => 1 + vsizeList es
  | .sliceNil => 1
  | .slice es => 1 + vsizeList es
  | .mapNil => 1
  | .mapV es => 1 + vsizeEntries es
  | .ptrNil => 1
  | .ptr p => 1 + vsize p
  | .chanNil => 1
  | .chan _ buf _ => 1 + vsizeList buf
  | .ifaceNil => 1
  | .iface dt dv => 1 + tsize dt + vsize dv
  | .structV fs => 1 + vsizeList fs
  | .fn => 1
/-- Structural weight of a value list. -/
def vsizeList : List Val → Nat
  | [] => 0
  | v :: vs => 1 + vsize v + vsizeList vs
/-- Structural weight of a map-entry list. -/
def vsizeEntries : List (Val × Val) → Nat
  | [] => 0
  | (k, v) :: es => 1 + vsize k + vsize v + vsizeEntries es
end

/-- Weight of an optional destination value (`none` = fresh zero). -/
def dsize : Option Val → Nat
  | none => 0
  | some v => vsize v

/-- Total weight of a list of optional destination slots. -/
def osizeList : List (Option Val) → Nat
  | [] => 0
  | d :: ds => dsize d + osizeList ds

theorem osizeList_replicate_none (n : Nat) :
    osizeList (List.replicate n none) = 0 := by
  induction n with
  | zero => rfl
  | succ k ih => simpa [List.replicate_succ, osizeList, dsize] using ih

theorem osizeList_map_some_le (es : List Val) :
    osizeList (es.map some) ≤ vsizeList es := by
  induction es with
  | nil => simp [osizeList, vsizeList]
  | cons v vs ih => simp [osizeList, vsizeList, dsize]; omega

theorem osizeList_take_le (ds : List (Option Val)) (n : Nat) :
    osizeList (ds.take n) ≤ osizeList ds := by
  induction ds generalizing n with
  | nil => simp [List.take_nil]
  | cons d ds ih =>
    cases n with
    | zero => simp [osizeList]
    | succ k => simp only [List.take_succ_cons, osizeList]; have := ih k; omega

theorem tsizeList_take_le (ts : List Ty) (n : Nat) :
    tsizeList (ts.take n) ≤ tsizeList ts := by
  induction ts generalizing n with
  | nil => simp [List.take_nil]
  | cons t ts ih =>
    cases n with
    | zero => simp [tsizeList]
    | succ k => simp only [List.take_succ_cons, tsizeList]; have := ih k; omega

theorem tsize_pos (t : Ty) : 1 ≤ tsize t := by
  cases t <;> simp [tsize] <;> omega

/-- Lexicographic helper for the decoder's termination measure. -/
theorem lexHelp {a b c d : Nat} (h : a < c ∨ (a = c ∧ b < d)) :
    Prod.Lex (· < ·) (· < ·) (a, b) (c, d) := by
  rcases h with h | ⟨rfl, h⟩
  · exact .left _ _ h
  · exact .right _ h

/-! ## Encoding

`encodeM t v` is the byte stream produced by running the machine for `t`
on value `v`.  The registry wraps the machine of every comparable type in
a `compareMachine`; since comparability is determined by the kind of `t`,
that wrapper is inlined into each arm below (for the always-comparable
kinds the zero test is the arm's first `if`/nil pattern; for arrays and
structs it is guarded by the comparability of the constituents; the
never-comparable kinds have no test).  Encoding a non-nil open channel
never returns (`chanMachine.encode` blocks until the channel is closed),
modelled by `Fail.diverge`; the channel case inlines the body of the
element-slice machine it delegates to (`m.ms.encode`). -/

mutual
/-- The encode side of the machine for type `t` (with the zero-value
`compareMachine` wrapper applied whenever `t` is comparable). -/
def encodeM : Ty → Val → Res (List Nat)
  | .bool, .bool b => .ok (if b then [1] else [0])
  | .int, .int i => .ok (if i == 0 then [0] else putVarint i)
  | .uint, .uint u => .ok (if u == 0 then [0] else putUvarint u)
  | .str, .str bs => .ok (if bs.isEmpty then [0] else putUvarint bs.length ++ bs)
  | .bytes, .bytesNil => .ok (putUvarint 0)
  | .bytes, .bytes bs => .ok (putUvarint bs.length ++ bs)
  | .array n e, .array es =>
    if tcomparable e && isZeroList e es then .ok [0]
    else do pure (putUvarint n ++ (← encodeList e es))
  | .slice _, .sliceNil => .ok (putUvarint 0)
  | .slice e, .slice es => do pure (putUvarint es.length ++ (← encodeList e es))
  | .mapT _ _, .mapNil => .ok (putUvarint 0)
  | .mapT kt vt, .mapV es => do pure (putUvarint es.length ++ (← encodeEntries kt vt es))
  | .ptr _, .ptrNil => .ok [0]
  | .ptr e, .ptr p => encodeM e p
  | .chan _, .chanNil => .ok [0]
  | .chan e, .chan _ buf closed =>
    if closed then do pure (putUvarint buf.length ++ (← encodeList e buf))
    else .error .diverge
  | .iface, .ifaceNil => .ok [0]
  | .iface, .iface dt dv => encodeM dt dv
  | .structT ts, .structV vs =>
    if tcomparableList ts && isZeroFields ts vs then .ok [0]
    else do pure (putUvarint ts.length ++ (← encodeFields ts vs))
  | _, _ => .ok []
/-- Concatenated element encodings of an array, slice or drained channel. -/
def encodeList : Ty → List Val → Res (List Nat)
  | _, [] => .ok []
  | e, v :: vs => do pure ((← encodeM e v) ++ (← encodeList e vs))
/-- Concatenated key-then-value encodings of map entries. -/
def encodeEntries : Ty → Ty → List (Val × Val) → Res (List Nat)
  | _, _, [] => .ok []
  | kt, vt, (k, v) :: es => do
    pure ((← encodeM kt k) ++ (← encodeM vt v) ++ (← encodeEntries kt vt es))
/-- Concatenated field encodings of a struct, in declared order. -/
def encodeFields : List Ty → List Val → Res (List Nat)
  | t :: ts, v :: vs => do pure ((← encodeM t v) ++ (← encodeFields ts vs))
  | _, _ => .ok []
end

/-! ## Decoding

`decodeM t dst canSet s` runs the decode side of the machine for `t`
against stream `s`.  `dst` is the current destination value (`none`
stands for a freshly allocated zero value, as produced by
`reflect.New`); `canSet` records whether the destination is addressable
(`reflect.Value.CanSet`) — it is true everywhere except below an
interface destination, whose `Elem()` is unaddressable.  As in the
encoder, the `compareMachine` wrapper of every comparable type is
applied first (`zcheck`); `ptrMachine`, `chanMachine` and
`interfaceMachine` additionally run their own `decodeZero`. -/

/-- `compareMachine.decode` prelude: `decodeZero` — peek one byte; on 0
set the destination to the zero value and stop, otherwise unread the
byte (the caller continues with the original stream). -/
def zcheck (t : Ty) (canSet : Bool) (s : List Nat) :
    Option (Res (Val × List Nat)) :=
  if tcomparable t then
    match readByte s with
    | .error er => some (.error er)
    | .ok (b, s1) =>
      if b = 0 then some (if canSet then .ok (zeroVal t, s1) else .error .setPanic)
      else none
  else none

mutual
/-- The decode side of the machine for type `t`. -/
def decodeM : Ty → Option Val → Bool → List Nat → Res (Val × List Nat)
  | .bool, _, canSet, s =>
    match zcheck .bool canSet s with
    | some r => r
    | none =>
      match readByte s with
      | .error er => .error er
      | .ok (b, s1) => if canSet then .ok (.bool (b == 1), s1) else .error .setPanic
  | .int, _, canSet, s =>
    match zcheck .int canSet s with
    | some r => r
    | none =>
      match readVarint s with
      | .error er => .error er
      | .ok (i, s1) => if canSet then .ok (.int i, s1) else .error .setPanic
  | .uint, _, canSet, s =>
    match zcheck .uint canSet s with
    | some r => r
    | none =>
      match readUvarint s with
      | .error er => .error er
      | .ok (u, s1) => if canSet then .ok (.uint u, s1) else .error .setPanic
  | .str, _, canSet, s =>
    match zcheck .str canSet s with
    | some r => r
    | none =>
      match readUvarint s with
      | .error er => .error er
      | .ok (l, s1) =>
        match readFull l s1 with
        | .error er => .error er
        | .ok (bs, s2) => if canSet then .ok (.str bs, s2) else .error .setPanic
  | .bytes, _, canSet, s =>
    match readUvarint s with
    | .error er => .error er
    | .ok (l, s1) =>
      match readFull l s1 with
      | .error er => .error er
      | .ok (bs, s2) => if canSet then .ok (.bytes bs, s2) else .error .setPanic
  | .array n e, dst, canSet, s =>
    match zcheck (.array n e) canSet s with
    | some r => r
    | none =>
      match readUvarint s with
      | .error er => .error er
      | .ok (c, s1) =>
        match dst with
        | some (.array es) =>
          match decodeElems e ((es.map some).take (min c n)) canSet s1 with
          | .error er => .error er
          | .ok (ds, s2) => .ok (.array (ds ++ es.drop (min c n)), s2)
        | _ =>
          match decodeElems e (List.replicate (min c n) none) canSet s1 with
          | .error er => .error er
          | .ok (ds, s2) => .ok (.array (ds ++ List.replicate (n - min c n) (zeroVal e)), s2)
  | .slice e, _, canSet, s =>
    match readUvarint s with
    | .error er => .error er
    | .ok (l, s1) =>
      if canSet then
        match decodeList e l s1 with
        | .error er => .error er
        | .ok (es, s2) => .ok (.slice es, s2)
      else .error .setPanic
  | .mapT kt vt, _, canSet, s =>
    if canSet then
      match readUvarint s with
      | .error er => .error er
      | .ok (l, s1) =>
        match decodeEntries kt vt l s1 with
        | .error er => .error er
        | .ok (es, s2) => .ok (.mapV es, s2)
    else .error .setPanic
  | .ptr e, dst, canSet, s =>
    match zcheck (.ptr e) canSet s with
    | some r => r
    | none =>
      match readByte s with
      | .error er => .error er
      | .ok (b, s1) =>
        if b = 0 then (if canSet then .ok (.ptrNil, s1) else .error .setPanic)
        else
          match dst with
          | some (.ptr p) =>
            match decodeM e (some p) true s with
            | .error er => .error er
            | .ok (pv, s2) => .ok (.ptr pv, s2)
          | _ =>
            if canSet then
              match decodeM e none true s with
              | .error er => .error er
              | .ok (pv, s2) => .ok (.ptr pv, s2)
            else .error .setPanic
  | .chan e, dst, canSet, s =>
    match zcheck (.chan e) canSet s with
    | some r => r
    | none =>
      match readByte s with
      | .error er => .error er
      | .ok (b, s1) =>
        if b = 0 then (if canSet then .ok (.chanNil, s1) else .error .setPanic)
        else
          match readUvarint s with
          | .error er => .error er
          | .ok (l, s2) =>
            match dst with
            | some (.chan cp buf cl) =>
              match decodeChanLoop e cp buf cl l s2 with
              | .error er => .error er
              | .ok (buf2, s3) => .ok (.chan cp buf2 cl, s3)
            | _ =>
              if canSet then
                match decodeList e l s2 with
                | .error er => .error er
                | .ok (es, s3) => .ok (.chan l es false, s3)
              else .error .setPanic
  | .iface, dst, canSet, s =>
    match zcheck .iface canSet s with
    | some r => r
    | none =>
      match readByte s with
      | .error er => .error er
      | .ok (b, s1) =>
        if b = 0 then (if canSet then .ok (.ifaceNil, s1) else .error .setPanic)
        else
          match dst with
          | some (.iface dt dv) =>
            match decodeM dt (some dv) false s with
            | .error er => .error er
            | .ok (dv2, s2) => .ok (.iface dt dv2, s2)
          | _ => .error .nilValuePanic
  | .structT ts, dst, canSet, s =>
    match zcheck (.structT ts) canSet s with
    | some r => r
    | none =>
      match readUvarint s with
      | .error er => .error er
      | .ok (c, s1) =>
        match dst with
        | some (.structV fs) =>
          match decodeFields (ts.take (min c ts.length)) ((fs.map some).take (min c ts.length)) canSet s1 with
          | .error er => .error er
          | .ok (ds, s2) => .ok (.structV (ds ++ fs.drop (min c ts.length)), s2)
        | _ =>
          match decodeFields (ts.take (min c ts.length)) (List.replicate (min c ts.length) none) canSet s1 with
          | .error er => .error er
          | .ok (ds, s2) => .ok (.structV (ds ++ zeroValList (ts.drop (min c ts.length))), s2)
  | .func, _, _, s => .ok (.fn, s)
  termination_by t dst _ _ => (tsize t + dsize dst, 0)
  decreasing_by
    all_goals
      first
      | exact lexHelp (Or.inl (by
          simp only [tsize, dsize, vsize, osizeList_replicate_none]
          omega))
      | exact lexHelp (Or.inl (by
          have h1 := osizeList_take_le (es.map some) (min c n)
          have h2 := osizeList_map_some_le es
          simp only [tsize, dsize, vsize]
          omega))
      | exact lexHelp (Or.inl (by
          have h1 := osizeList_take_le (fs.map some) (min c ts.length)
          have h2 := osizeList_map_some_le fs
          have h3 := tsizeList_take_le ts (min c ts.length)
          simp only [tsize, dsize, vsize]
          omega))
      | exact lexHelp (Or.inl (by
          have h3 := tsizeList_take_le ts (min c ts.length)
          simp only [tsize, dsize, vsize, osizeList_replicate_none]
          omega))
/-- Decode one element per destination slot in order (`arrayMachine`'s
loop over `v.Index(i)`). -/
def decodeElems : Ty → List (Option Val) → Bool → List Nat → Res (List Val × List Nat)
  | _, [], _, s => .ok ([], s)
  | e, d :: ds, canSet, s =>
    match decodeM e d canSet s with
    | .error er => .error er
    | .ok (v, s1) =>
      match decodeElems e ds canSet s1 with
      | .error er => .error er
      | .ok (vs, s2) => .ok (v :: vs, s2)
  termination_by e ds _ _ => (tsize e + osizeList ds, ds.length)
  decreasing_by
    all_goals
      exact lexHelp (by
        have ho : osizeList (d :: ds) = dsize d + osizeList ds := rfl
        have hl : (d :: ds).length = ds.length + 1 := rfl
        omega)
/-- Decode `l` fresh elements (`sliceMachine`'s loop after `MakeSlice`,
and `chanMachine`'s receive loop into a fresh channel). -/
def decodeList : Ty → Nat → List Nat → Res (List Val × List Nat)
  | _, 0, s => .ok ([], s)
  | e, l + 1, s =>
    match decodeM e none true s with
    | .error er => .error er
    | .ok (v, s1) =>
      match decodeList e l s1 with
      | .error er => .error er
      | .ok (vs, s2) => .ok (v :: vs, s2)
  termination_by e l _ => (tsize e, l)
  decreasing_by
    all_goals
      exact lexHelp (by
        have hd : dsize (none : Option Val) = 0 := rfl
        omega)
/-- Decode `l` key/value pairs into fresh destinations
(`mapMachine.decode`'s loop). -/
def decodeEntries : Ty → Ty → Nat → List Nat → Res (List (Val × Val) × List Nat)
  | _, _, 0, s => .ok ([], s)
  | kt, vt, l + 1, s =>
    match decodeM kt none true s with
    | .error er => .error er
    | .ok (k, s1) =>
      match decodeM vt none true s1 with
      | .error er => .error er
      | .ok (v, s2) =>
        match decodeEntries kt vt l s2 with
        | .error er => .error er
        | .ok (es, s3) => .ok ((k, v) :: es, s3)
  termination_by kt vt l _ => (tsize kt + tsize vt, l)
  decreasing_by
    all_goals
      exact lexHelp (by
        have hd : dsize (none : Option Val) = 0 := rfl
        omega)
/-- Decode one field per destination slot, in declared order
(`structMachine.decode`'s loop over `v.Field(i)`). -/
def decodeFields : List Ty → List (Option Val) → Bool → List Nat → Res (List Val × List Nat)
  | t :: ts, d :: ds, canSet, s =>
    match decodeM t d canSet s with
    | .error er => .error er
    | .ok (v, s1) =>
      match decodeFields ts ds canSet s1 with
      | .error er => .error er
      | .ok (vs, s2) => .ok (v :: vs, s2)
  | _, _, _, s => .ok ([], s)
  termination_by ts ds _ _ => (tsizeList ts + osizeList ds, 0)
  decreasing_by
    all_goals
      exact lexHelp (Or.inl (by
        have ht : tsizeList (t :: ts) = 1 + tsize t + tsizeList ts := rfl
        have ho : osizeList (d :: ds) = dsize d + osizeList ds := rfl
        omega))
/-- Decode `l` elements and send each into an existing channel of
capacity `cp` holding `buf` (`chanMachine.decode` when the destination
channel is non-nil): a send on a closed channel panics and a send on a
full channel blocks forever. -/
def decodeChanLoop : Ty → Nat → List Val → Bool → Nat → List Nat → Res (List Val × List Nat)
  | _, _, buf, _, 0, s => .ok (buf, s)
  | e, cp, buf, cl, l + 1, s =>
    match decodeM e none true s with
    | .error er => .error er
    | .ok (v, s1) =>
      if cl then .error .sendClosedPanic
      else if buf.length < cp then decodeChanLoop e cp (buf ++ [v]) cl l s1
      else .error .diverge
  termination_by e _ _ _ l _ => (tsize e, l)
  decreasing_by
    all_goals
      exact lexHelp (by
        have hd : dsize (none : Option Val) = 0 := rfl
        omega)
end

/-! ## The machine registry (`_types`)

A machine in this model is identified by the type it was compiled for
(its behaviour is `encodeM`/`decodeM` of that type); `none` in the
registry is the `nil` machine interface value that the deferred function
in `register` stores when a `TypeError` panic unwinds (`ret` is still
nil at that point).  `Ty` has no recursive types, so the
`recurseMachine` placeholder and the lock are unobservable and elided;
the re-check at the top of `register` (under the exclusive lock) is
kept. -/

mutual
/-- Syntactic equality of type descriptors (map keys of the registry). -/
def tyBeq : Ty → Ty → Bool
  | .bool, .bool => true
  | .int, .int => true
  | .uint, .uint => true
  | .str, .str => true
  | .bytes, .bytes => true
  | .array n e, .array n2 e2 => n == n2 && tyBeq e e2
  | .slice e, .slice e2 => tyBeq e e2
  | .mapT k v, .mapT k2 v2 => tyBeq k k2 && tyBeq v v2
  | .ptr e, .ptr e2 => tyBeq e e2
  | .chan e, .chan e2 => tyBeq e e2
  | .iface, .iface => true
  | .structT ts, .structT ts2 => tyBeqList ts ts2
  | .func, .func => true
  | _, _ => false
/-- Equality of field-type lists. -/
def tyBeqList : List Ty → List Ty → Bool
  | [], [] => true
  | t :: ts, t2 :: ts2 => tyBeq t t2 && tyBeqList ts ts2
  | _, _ => false
end

/-- The registry map `_types.m`: type ↦ machine, where a `none` machine
is the nil interface cached after a failed compilation. -/
abbrev Reg := List (Ty × Option Ty)

/-- Map lookup `g.m[t]` (`none` = key absent; `some none` = key present
with a nil machine). -/
def regFind : Reg → Ty → Option (Option Ty)
  | [], _ => none
  | (t2, m) :: g, t => if tyBeq t t2 then some m else regFind g t

/-- Outcome of a registry access. -/
inductive RegOut : Type where
  | machine (m : Ty)  -- a machine was found or built
  | nilM              -- the cached nil machine of a previously failed type
  | typeErr (bad : Ty)  -- `panic(TypeError{bad})` unwinding out of `register`
deriving Repr

mutual
/-- `_types.register`: walk a type and build its machine.  On success the
machine is cached and returned; a constituent with no structural case
and no marshaler capability panics with `TypeError` naming it, and the
deferred function still caches the (nil) named result `ret` for every
type on the unwinding path. -/
def register : Reg → Ty → Reg × RegOut
  | g, t =>
    match regFind g t with
    | some m => (g, match m with | some m => .machine m | none => .nilM)
    | none =>
      match registerBody g t with
      | (g2, .machine m) => ((t, some m) :: g2, .machine m)
      | (g2, r) => ((t, none) :: g2, r)
  termination_by _ t => (tsize t, 1)
  decreasing_by
    exact lexHelp (by omega)
/-- The `bigswitch` of `register` plus the marshaler fallback: build the
machine for `t`, registering constituent types first.  A nil machine
returned by `get` for a constituent (cached failure) is treated like a
machine, exactly as `r[i] = g.get(f.Type)` stores it without checking. -/
def registerBody : Reg → Ty → Reg × RegOut
  | g, .bool => (g, .machine .bool)
  | g, .int => (g, .machine .int)
  | g, .uint => (g, .machine .uint)
  | g, .str => (g, .machine .str)
  | g, .bytes => (g, .machine .bytes)
  | g, .array n e =>
    match register g e with
    | (g2, .typeErr bad) => (g2, .typeErr bad)
    | (g2, _) => (g2, .machine (.array n e))
  | g, .slice e =>
    match register g e with
    | (g2, .typeErr bad) => (g2, .typeErr bad)
    | (g2, _) => (g2, .machine (.slice e))
  | g, .mapT k v =>
    match register g k with
    | (g2, .typeErr bad) => (g2, .typeErr bad)
    | (g2, _) =>
      match register g2 v with
      | (g3, .typeErr bad) => (g3, .typeErr bad)
      | (g3, _) => (g3, .machine (.mapT k v))
  | g, .ptr e =>
    match register g e with
    | (g2, .typeErr bad) => (g2, .typeErr bad)
    | (g2, _) => (g2, .machine (.ptr e))
  | g, .chan e =>
    match register g e with
    | (g2, .typeErr bad) => (g2, .typeErr bad)
    | (g2, _) =>
      match register g2 (.slice e) with
      | (g3, .typeErr bad) => (g3, .typeErr bad)
      | (g3, _) => (g3, .machine (.chan e))
  | g, .iface => (g, .machine .iface)
  | g, .structT ts =>
    match registerFields g ts with
    | (g2, some bad) => (g2, .typeErr bad)
    | (g2, none) => (g2, .machine (.structT ts))
  | g, .func => (g, .typeErr .func)
  termination_by _ t => (tsize t, 0)
  decreasing_by
    all_goals exact lexHelp (Or.inl (by simp only [tsize, tsizeList]; omega))
/-- Register every field type of a struct in order; the first
`TypeError` panic aborts the loop and propagates its type. -/
def registerFields : Reg → List Ty → Reg × Option Ty
  | g, [] => (g, none)
  | g, t :: ts =>
    match register g t with
    | (g2, .typeErr bad) => (g2, some bad)
    | (g2, _) => registerFields g2 ts
  termination_by _ ts => (tsizeList ts, 0)
  decreasing_by
    all_goals exact lexHelp (Or.inl (by simp only [tsizeList]; omega))
end

/-- `_types.get`: shared-lock lookup (returning even a cached nil
machine), falling back to `register` on a miss. -/
def getMachine (g : Reg) (t : Ty) : Reg × RegOut :=
  match regFind g t with
  | some (some m) => (g, .machine m)
  | some none => (g, .nilM)
  | none => register g t

/-! ## Entry points

`EncodeValue` / `DecodeValue`: resolve the machine, run it, and recover
`noPanic` failures into returned errors; every other panic escapes.  The
destination handed to `EncodeValue` either already implements the
package's `writer` interface (`Sink.direct`) or is a plain `io.Writer`
(`Sink.plain`): in the latter case the code builds a `bufio.Writer`
`tmp` and assigns it to the if-scoped shadow of `w`, but never to `e.w`,
which stays the nil `writer`, so the machine's first write panics with a
nil-pointer dereference.  (Every machine writes at least one byte before
doing anything else that can fail, except a blocking channel drain,
which happens before the first write.) -/

/-- The two kinds of destination accepted by `EncodeValue`. -/
inductive Sink : Type where
  | direct  -- already implements `writer` (Write/WriteByte/WriteString)
  | plain   -- a plain `io.Writer`, to be wrapped in `bufio.NewWriter`
deriving Repr, DecidableEq

/-- What an entry-point call does, as observed by the caller. -/
inductive Outcome (α : Type) : Type where
  | ok (a : α)              -- normal return, `err = nil`
  | err (e : Fail)          -- a `noPanic` failure recovered and returned
  | panicked (e : Fail)     -- a runtime panic that escapes the entry point
  | typeErrorPanic (t : Ty) -- `panic(TypeError{t})` escaping the entry point
  | nilMachinePanic         -- method call on the cached nil machine
  | nilWriterPanic          -- write through the never-assigned `e.w`
  | diverge                 -- the call never returns
deriving Repr

/-- Translate a machine failure through the entry point's deferred
`recover`: `noPanic` failures become returned errors, the rest re-panic. -/
def runRecover {α : Type} : Res α → Outcome α
  | .ok a => .ok a
  | .error .diverge => .diverge
  | .error e => if e.returned then .err e else .panicked e

/-- `EncodeValue` (after the `reflect.Indirect` of a non-settable
argument, so `t`/`v` are the addressable value's type and value). -/
def encodeValue (g : Reg) (w : Sink) (t : Ty) (v : Val) : Reg × Outcome (List Nat) :=
  match getMachine g t with
  | (g2, .typeErr bad) => (g2, .typeErrorPanic bad)
  | (g2, .nilM) => (g2, .nilMachinePanic)
  | (g2, .machine m) =>
    match w with
    | .direct => (g2, runRecover (encodeM m v))
    | .plain =>
      match encodeM m v with
      | .error .diverge => (g2, .diverge)
      | _ => (g2, .nilWriterPanic)

/-- `DecodeValue` (after `reflect.Indirect`): the destination is
addressable, and the stream's unread remainder is returned alongside the
decoded value. -/
def decodeValue (g : Reg) (t : Ty) (dst : Val) (s : List Nat) :
    Reg × Outcome (Val × List Nat) :=
  match getMachine g t with
  | (g2, .typeErr bad) => (g2, .typeErrorPanic bad)
  | (g2, .nilM) => (g2, .nilMachinePanic)
  | (g2, .machine m) => (g2, runRecover (decodeM m (some dst) true s))

/-! ## Varint layer: basic facts -/

theorem putUvarint_zero : putUvarint 0 = [0] := by
  simp [putUvarint]

theorem putUvarint_cons (x : Nat) :
    ∃ b l, putUvarint x = b :: l ∧ (b = 0 ↔ x = 0) := by
  rw [putUvarint]
  by_cases h : x < 128
  · exact ⟨x, [], by simp [h], by simp⟩
  · refine ⟨x % 128 + 128, putUvarint (x / 128), by simp [h], ?_⟩
    constructor <;> intro hc <;> omega

theorem putUvarint_ne_nil (x : Nat) : putUvarint x ≠ [] := by
  obtain ⟨b, l, h, _⟩ := putUvarint_cons x
  simp [h]

/-- The varint round trip, generalized over the loop state: with `rem`
iterations left the loop can absorb any value below `2 ^ (7 * (rem - 1) + 1)`. -/
theorem readUvarintLoop_put (rem : Nat) :
    ∀ x sh u r, 1 ≤ rem → u < 2 ^ (7 * (rem - 1) + 1) →
      readUvarintLoop rem x sh (putUvarint u ++ r) = .ok (x + u * 2 ^ sh, r) := by
  induction rem with
  | zero => intro x sh u r h; omega
  | succ rm ih =>
    intro x sh u r _ hu
    have hu2 : u < 2 ^ (7 * rm + 1) := by
      have h7 : 7 * (rm + 1 - 1) + 1 = 7 * rm + 1 := by omega
      rwa [h7] at hu
    rw [putUvarint]
    by_cases h : u < 128
    · rw [dif_pos h]
      simp only [List.singleton_append, readUvarintLoop]
      rw [if_pos h]
      split
      · next hcond =>
        exfalso
        simp only [Bool.and_eq_true, decide_eq_true_eq] at hcond
        obtain ⟨h0, h1⟩ := hcond
        subst h0
        norm_num at hu2
        omega
      · rfl
    · rw [dif_neg h]
      simp only [List.cons_append, readUvarintLoop]
      rw [if_neg (by omega)]
      have hrm : 1 ≤ rm := by
        rcases Nat.eq_zero_or_pos rm with rfl | h2
        · exfalso; norm_num at hu2; omega
        · exact h2
      have hdiv : u / 128 < 2 ^ (7 * (rm - 1) + 1) := by
        have h3 : 7 * rm + 1 = (7 * (rm - 1) + 1) + 7 := by omega
        rw [h3, pow_add] at hu2
        exact Nat.div_lt_of_lt_mul (by simpa [Nat.mul_comm] using hu2)
      have hmod : (u % 128 + 128) % 128 = u % 128 := by omega
      rw [hmod, ih _ _ _ _ hrm hdiv]
      have h128 : (2 : Nat) ^ (sh + 7) = 2 ^ sh * 128 := by rw [pow_add]; norm_num
      have hsplit : x + u % 128 * 2 ^ sh + u / 128 * 2 ^ (sh + 7) = x + u * 2 ^ sh := by
        have huu : u % 128 + 128 * (u / 128) = u := Nat.mod_add_div u 128
        calc x + u % 128 * 2 ^ sh + u / 128 * 2 ^ (sh + 7)
            = x + (u % 128 + 128 * (u / 128)) * 2 ^ sh := by rw [h128]; ring
          _ = x + u * 2 ^ sh := by rw [huu]
      rw [hsplit]

/-- `ReadUvarint` inverts `PutUvarint` for 64-bit values, leaving the
rest of the stream untouched. -/
theorem readUvarint_put (u : Nat) (r : List Nat) (hu : u < 2 ^ 64) :
    readUvarint (putUvarint u ++ r) = .ok (u, r) := by
  have h := readUvarintLoop_put 10 0 0 u r (by omega) (by norm_num; omega)
  simpa [readUvarint] using h

theorem zigzag_lt (i : Int) (h1 : -(2 ^ 63) ≤ i) (h2 : i < 2 ^ 63) :
    zigzag i < 2 ^ 64 := by
  unfold zigzag
  split <;> omega

theorem unzigzag_zigzag (i : Int) : unzigzag (zigzag i) = i := by
  unfold zigzag unzigzag
  by_cases h : 0 ≤ i
  · rw [if_pos h]
    have h2 : ((2 * i).toNat : Int) = 2 * i := by omega
    split
    · omega
    · omega
  · rw [if_neg h]
    split <;> omega

/-- `ReadVarint` inverts `PutVarint` for 64-bit signed values. -/
theorem readVarint_put (i : Int) (r : List Nat)
    (h1 : -(2 ^ 63) ≤ i) (h2 : i < 2 ^ 63) :
    readVarint (putVarint i ++ r) = .ok (i, r) := by
  rw [putVarint, readVarint, readUvarint_put _ _ (zigzag_lt i h1 h2)]
  simp [unzigzag_zigzag]

/-! ## Round-trip predicates

`encHeadZero t v` says the encoding of `v` begins with byte 0 (it is the
single-byte zero wire, or a length/count prefix of 0).  `rtTy` carves out
the type families of the round-trip property (channels never round-trip
— the decoded channel is a fresh open one — and a fresh interface
destination is nil, so both are excluded, as is `func`).  `rtSafe`
excludes the values the code demonstrably does not round-trip: nil
slices, maps and byte slices (decode always produces non-nil ones), and
non-nil pointers whose pointee encodes to the zero wire (the
`compareMachine` invariant breaks there and decode collapses them to
nil). -/

mutual
/-- Does `encodeM t v` begin with byte 0?  (Meaningful for well-formed
`v` whose encoding succeeds.) -/
def encHeadZero : Ty → Val → Bool
  | .bool, .bool b => !b
  | .int, .int i => i == 0
  | .uint, .uint u => u == 0
  | .str, .str bs => bs.isEmpty
  | .bytes, .bytesNil => true
  | .bytes, .bytes bs => bs.isEmpty
  | .array n e, .array es => (tcomparable e && isZeroList e es) || n == 0
  | .slice _, .sliceNil => true
  | .slice _, .slice es => es.isEmpty
  | .mapT _ _, .mapNil => true
  | .mapT _ _, .mapV es => es.isEmpty
  | .ptr _, .ptrNil => true
  | .ptr e, .ptr p => encHeadZero e p
  | .chan _, .chanNil => true
  | .chan _, .chan _ buf _ => buf.isEmpty
  | .iface, .ifaceNil => true
  | .iface, .iface dt dv => encHeadZero dt dv
  | .structT ts, .structV vs => tcomparableList ts && isZeroFields ts vs
  | _, _ => false
end

mutual
/-- The type families quantified over by the round-trip property:
everything except channels, interfaces and uncompilable types. -/
def rtTy : Ty → Bool
  | .bool | .int | .uint | .str | .bytes => true
  | .array _ e => rtTy e
  | .slice e => rtTy e
  | .mapT k v => rtTy k && rtTy v
  | .ptr e => rtTy e
  | .chan _ => false
  | .iface => false
  | .structT ts => rtTyList ts
  | .func => false
/-- All field types in the round-trip families. -/
def rtTyList : List Ty → Bool
  | [] => true
  | t :: ts => rtTy t && rtTyList ts
end

mutual
/-- Values that survive the round trip exactly: no nil slice, map or
byte slice anywhere, and no non-nil pointer whose pointee encodes to the
zero wire. -/
def rtSafe : Ty → Val → Bool
  | .bool, .bool _ => true
  | .int, .int _ => true
  | .uint, .uint _ => true
  | .str, .str _ => true
  | .bytes, .bytes _ => true
  | .array _ e, .array es => rtSafeList e es
  | .slice e, .slice es => rtSafeList e es
  | .mapT k v, .mapV es => rtSafeEntries k v es
  | .ptr _, .ptrNil => true
  | .ptr e, .ptr p => !encHeadZero e p && rtSafe e p
  | .structT ts, .structV vs => rtSafeFields ts vs
  | _, _ => false
/-- All elements round-trip safe. -/
def rtSafeList : Ty → List Val → Bool
  | _, [] => true
  | e, v :: vs => rtSafe e v && rtSafeList e vs
/-- All map entries round-trip safe. -/
def rtSafeEntries : Ty → Ty → List (Val × Val) → Bool
  | _, _, [] => true
  | k, v, (kv, vv) :: es => rtSafe k kv && rtSafe v vv && rtSafeEntries k v es
/-- All struct fields round-trip safe. -/
def rtSafeFields : List Ty → List Val → Bool
  | [], [] => true
  | t :: ts, v :: vs => rtSafe t v && rtSafeFields ts vs
  | _, _ => false
end

/-! ## Supporting lemmas -/

theorem zigzag_eq_zero (i : Int) : zigzag i = 0 ↔ i = 0 := by
  unfold zigzag; split <;> omega

theorem vsizeList_mem {v : Val} {vs : List Val} (h : v ∈ vs) :
    vsize v < vsizeList vs := by
  induction vs with
  | nil => simp at h
  | cons w ws ih =>
    rcases List.mem_cons.mp h with rfl | h2
    · simp [vsizeList]; omega
    · have := ih h2; simp [vsizeList]; omega

theorem vsizeEntries_mem {k v : Val} {es : List (Val × Val)} (h : (k, v) ∈ es) :
    vsize k < vsizeEntries es ∧ vsize v < vsizeEntries es := by
  induction es with
  | nil => simp at h
  | cons e es ih =>
    obtain ⟨ek, ev⟩ := e
    rcases List.mem_cons.mp h with heq | h2
    · obtain ⟨rfl, rfl⟩ := Prod.mk.injEq .. ▸ heq
      constructor <;> (simp [vsizeEntries]; omega)
    · have := ih h2; simp [vsizeEntries]; omega

theorem wfList_mem {e : Ty} {vs : List Val} (h : wfList e vs = true) :
    ∀ v ∈ vs, wf e v = true := by
  induction vs with
  | nil => simp
  | cons w ws ih =>
    simp only [wfList, Bool.and_eq_true] at h
    intro v hv
    rcases List.mem_cons.mp hv with rfl | h2
    · exact h.1
    · exact ih h.2 v h2

theorem isZeroList_mem {e : Ty} {vs : List Val} (h : isZeroList e vs = true) :
    ∀ v ∈ vs, isZero e v = true := by
  induction vs with
  | nil => simp
  | cons w ws ih =>
    simp only [isZeroList, Bool.and_eq_true] at h
    intro v hv
    rcases List.mem_cons.mp hv with rfl | h2
    · exact h.1
    · exact ih h.2 v h2

set_option maxHeartbeats 2000000 in
/-- First-byte characterization: a successful encoding is never empty,
and its first byte is 0 exactly when `encHeadZero` says so. -/
theorem encHead (N : Nat) : ∀ (t : Ty) (v : Val), vsize v ≤ N →
    ∀ bs, wf t v = true → encodeM t v = .ok bs →
    ∃ b l, bs = b :: l ∧ (b = 0 ↔ encHeadZero t v = true) := by
  induction N with
  | zero =>
    intro t v hv
    exfalso
    cases v <;> simp [vsize] at hv <;> omega
  | succ N ih =>
    intro t v hv bs hwf henc
    cases t <;> cases v <;> (try (exact Bool.noConfusion hwf)) <;>
      (try simp only [encodeM] at henc)
    case bool.bool b =>
      cases b
      · injection henc with henc
        exact ⟨0, [], henc.symm.trans (by norm_num), by simp [encHeadZero]⟩
      · injection henc with henc
        exact ⟨1, [], henc.symm.trans (by norm_num), by simp [encHeadZero]⟩
    case int.int i =>
      by_cases h0 : i = 0
      · subst h0
        have h3 : (Except.ok [0] : Res (List Nat)) = .ok bs := henc
        injection h3 with h3
        exact ⟨0, [], h3.symm, by simp [encHeadZero]⟩
      · rw [if_neg (by simpa using h0)] at henc
        injection henc with henc
        obtain ⟨b, l, hb, hiff⟩ := putUvarint_cons (zigzag i)
        refine ⟨b, l, ?_, ?_⟩
        · rw [← henc, putVarint, hb]
        · rw [hiff, zigzag_eq_zero]
          simp [encHeadZero, h0]
    case uint.uint u =>
      by_cases h0 : u = 0
      · subst h0
        have h3 : (Except.ok [0] : Res (List Nat)) = .ok bs := henc
        injection h3 with h3
        exact ⟨0, [], h3.symm, by simp [encHeadZero]⟩
      · rw [if_neg (by simpa using h0)] at henc
        injection henc with henc
        obtain ⟨b, l, hb, hiff⟩ := putUvarint_cons u
        refine ⟨b, l, ?_, ?_⟩
        · rw [← henc, hb]
        · rw [hiff]
          simp [encHeadZero, h0]
    case str.str cs =>
      by_cases h0 : cs.isEmpty
      · rw [if_pos h0] at henc
        injection henc with henc
        exact ⟨0, [], henc.symm, by simp [encHeadZero, h0]⟩
      · rw [if_neg h0] at henc
        injection henc with henc
        obtain ⟨b, l, hb, hiff⟩ := putUvarint_cons cs.length
        refine ⟨b, l ++ cs, ?_, ?_⟩
        · rw [← henc, hb]; rfl
        · rw [hiff]
          have hne : cs ≠ [] := by simpa [List.isEmpty_iff] using h0
          simp [encHeadZero, List.length_eq_zero, List.isEmpty_iff, hne]
    case bytes.bytesNil =>
      injection henc with henc
      exact ⟨0, [], henc.symm.trans (by rw [putUvarint_zero]), by simp [encHeadZero]⟩
    case bytes.bytes cs =>
      injection henc with henc
      obtain ⟨b, l, hb, hiff⟩ := putUvarint_cons cs.length
      refine ⟨b, l ++ cs, ?_, ?_⟩
      · rw [← henc, hb]; rfl
      · rw [hiff]
        simp [encHeadZero, List.length_eq_zero, List.isEmpty_iff]
    case array.array n e es =>
      by_cases hz : (tcomparable e && isZeroList e es) = true
      · rw [if_pos hz] at henc
        injection henc with henc
        refine ⟨0, [], henc.symm, ?_⟩
        simp [encHeadZero, hz]
      · rw [if_neg hz] at henc
        obtain ⟨eb, hlist, hbs⟩ : ∃ eb, encodeList e es = .ok eb ∧
            bs = putUvarint n ++ eb := by
          cases h : encodeList e es with
          | error er => rw [h] at henc; exact absurd henc (by simp)
          | ok eb =>
            rw [h] at henc
            refine ⟨eb, rfl, ?_⟩
            simpa using henc.symm
        obtain ⟨b, l, hb, hiff⟩ := putUvarint_cons n
        refine ⟨b, l ++ eb, by rw [hbs, hb]; rfl, ?_⟩
        rw [hiff]
        simp [encHeadZero, hz]
    case slice.sliceNil e =>
      injection henc with henc
      exact ⟨0, [], henc.symm.trans (by rw [putUvarint_zero]), by simp [encHeadZero]⟩
    case slice.slice e es =>
      obtain ⟨eb, hlist, hbs⟩ : ∃ eb, encodeList e es = .ok eb ∧
          bs = putUvarint es.length ++ eb := by
        cases h : encodeList e es with
        | error er => rw [h] at henc; exact absurd henc (by simp)
        | ok eb =>
          rw [h] at henc
          refine ⟨eb, rfl, ?_⟩
          simpa using henc.symm
      obtain ⟨b, l, hb, hiff⟩ := putUvarint_cons es.length
      refine ⟨b, l ++ eb, by rw [hbs, hb]; rfl, ?_⟩
      rw [hiff]
      simp [encHeadZero, List.length_eq_zero, List.isEmpty_iff]
    case mapT.mapNil kt vt =>
      injection henc with henc
      exact ⟨0, [], henc.symm.trans (by rw [putUvarint_zero]), by simp [encHeadZero]⟩
    case mapT.mapV kt vt es =>
      obtain ⟨eb, hlist, hbs⟩ : ∃ eb, encodeEntries kt vt es = .ok eb ∧
          bs = putUvarint es.length ++ eb := by
        cases h : encodeEntries kt vt es with
        | error er => rw [h] at henc; exact absurd henc (by simp)
        | ok eb =>
          rw [h] at henc
          refine ⟨eb, rfl, ?_⟩
          simpa using henc.symm
      obtain ⟨b, l, hb, hiff⟩ := putUvarint_cons es.length
      refine ⟨b, l ++ eb, by rw [hbs, hb]; rfl, ?_⟩
      rw [hiff]
      simp [encHeadZero, List.length_eq_zero, List.isEmpty_iff]
    case ptr.ptrNil e =>
      injection henc with henc
      exact ⟨0, [], henc.symm, by simp [encHeadZero]⟩
    case ptr.ptr e p =>
      have hp : vsize p ≤ N := by simp [vsize] at hv; omega
      obtain ⟨b, l, hb, hiff⟩ := ih e p hp bs hwf henc
      exact ⟨b, l, hb, by rw [hiff]; simp [encHeadZero]⟩
    case chan.chanNil e =>
      injection henc with henc
      exact ⟨0, [], henc.symm, by simp [encHeadZero]⟩
    case chan.chan e cp buf cl =>
      cases cl with
      | false => exact absurd henc (by simp)
      | true =>
        rw [if_pos rfl] at henc
        obtain ⟨eb, hlist, hbs⟩ : ∃ eb, encodeList e buf = .ok eb ∧
            bs = putUvarint buf.length ++ eb := by
          cases h : encodeList e buf with
          | error er => rw [h] at henc; exact absurd henc (by simp)
          | ok eb =>
            rw [h] at henc
            refine ⟨eb, rfl, ?_⟩
            simpa using henc.symm
        obtain ⟨b, l, hb, hiff⟩ := putUvarint_cons buf.length
        refine ⟨b, l ++ eb, by rw [hbs, hb]; rfl, ?_⟩
        rw [hiff]
        simp [encHeadZero, List.length_eq_zero, List.isEmpty_iff]
    case iface.ifaceNil =>
      injection henc with henc
      exact ⟨0, [], henc.symm, by simp [encHeadZero]⟩
    case iface.iface dt dv =>
      have hp : vsize dv ≤ N := by simp [vsize] at hv; omega
      obtain ⟨b, l, hb, hiff⟩ := ih dt dv hp bs hwf henc
      exact ⟨b, l, hb, by rw [hiff]; simp [encHeadZero]⟩
    case structT.structV ts vs =>
      by_cases hz : (tcomparableList ts && isZeroFields ts vs) = true
      · rw [if_pos hz] at henc
        injection henc with henc
        refine ⟨0, [], henc.symm, ?_⟩
        simp [encHeadZero, hz]
      · rw [if_neg hz] at henc
        obtain ⟨eb, hlist, hbs⟩ : ∃ eb, encodeFields ts vs = .ok eb ∧
            bs = putUvarint ts.length ++ eb := by
          cases h : encodeFields ts vs with
          | error er => rw [h] at henc; exact absurd henc (by simp)
          | ok eb =>
            rw [h] at henc
            refine ⟨eb, rfl, ?_⟩
            simpa using henc.symm
        obtain ⟨b, l, hb, hiff⟩ := putUvarint_cons ts.length
        refine ⟨b, l ++ eb, by rw [hbs, hb]; rfl, ?_⟩
        rw [hiff]
        simp only [encHeadZero, hz]
        constructor
        · intro h0
          exfalso
          have hts : ts = [] := by simpa [List.length_eq_zero] using h0
          subst hts
          simp only [wf, Bool.and_eq_true] at hwf
          obtain ⟨h1, h2⟩ := hwf
          cases vs with
          | nil => simp [tcomparableList, isZeroFields] at hz
          | cons w ws => simp [wfFields] at h2
        · intro h0
          exact absurd h0 (by simp)

/-- A well-formed value that Go `==` considers equal to the zero value
is structurally the zero value. -/
theorem isZero_zeroVal (N : Nat) : ∀ (t : Ty) (v : Val), vsize v ≤ N →
    wf t v = true → isZero t v = true → v = zeroVal t := by
  induction N with
  | zero =>
    intro t v hv
    exfalso
    cases v <;> simp [vsize] at hv <;> omega
  | succ N ih =>
    intro t v hv hwf hz
    cases t <;> cases v <;> (try (exact Bool.noConfusion hwf)) <;>
      (try (exact Bool.noConfusion hz))
    case bool.bool b =>
      cases b
      · rfl
      · exact Bool.noConfusion hz
    case int.int i =>
      have : i = 0 := by simpa [isZero] using hz
      simp [this, zeroVal]
    case uint.uint u =>
      have : u = 0 := by simpa [isZero] using hz
      simp [this, zeroVal]
    case str.str cs =>
      have : cs = [] := by simpa [isZero, List.isEmpty_iff] using hz
      simp [this, zeroVal]
    case array.array n e es =>
      simp only [wf, Bool.and_eq_true, beq_iff_eq] at hwf
      obtain ⟨⟨hlen, _⟩, hwfl⟩ := hwf
      have hzl : isZeroList e es = true := by simpa [isZero] using hz
      simp only [zeroVal]
      congr 1
      rw [List.eq_replicate_iff]
      refine ⟨hlen, ?_⟩
      intro w hw
      have hsz : vsize w ≤ N := by
        have h1 := vsizeList_mem hw
        simp [vsize] at hv
        omega
      exact ih e w hsz (wfList_mem hwfl w hw) (isZeroList_mem hzl w hw)
    case ptr.ptrNil e => rfl
    case chan.chanNil e => rfl
    case iface.ifaceNil => rfl
    case structT.structV ts vs =>
      simp only [wf, Bool.and_eq_true] at hwf
      obtain ⟨hlen64, hwfl⟩ := hwf
      have hzf : isZeroFields ts vs = true := by simpa [isZero] using hz
      simp only [zeroVal]
      congr 1
      have hbound : vsizeList vs ≤ N := by simp [vsize] at hv; omega
      clear hz hv hlen64
      induction vs generalizing ts with
      | nil =>
        cases ts with
        | nil => rfl
        | cons t2 ts2 => exact Bool.noConfusion hwfl
      | cons w ws ihw =>
        cases ts with
        | nil => exact Bool.noConfusion hwfl
        | cons t2 ts2 =>
          simp only [wfFields, Bool.and_eq_true] at hwfl
          simp only [isZeroFields, Bool.and_eq_true] at hzf
          simp only [vsizeList] at hbound
          simp only [zeroValList]
          congr 1
          · exact ih t2 w (by omega) hwfl.1 hzf.1
          · exact ihw ts2 hwfl.2 hzf.2 (by omega)

/-- For a comparable type in the round-trip families, a round-trip-safe
non-zero value never encodes with first byte 0. -/
theorem encHeadZero_false (t : Ty) (v : Val) (hc : tcomparable t = true)
    (hwf : wf t v = true) (hsafe : rtSafe t v = true) (hnz : isZero t v = false) :
    encHeadZero t v = false := by
  cases t <;> cases v <;> (try (exact Bool.noConfusion hwf)) <;>
    (try (exact Bool.noConfusion hc)) <;> (try (exact Bool.noConfusion hsafe)) <;>
    (try (exact Bool.noConfusion hnz)) <;> (try (exact hnz))
  case array.array n e es =>
    simp only [encHeadZero, Bool.or_eq_false_iff, Bool.and_eq_false_iff]
    constructor
    · right
      simpa [isZero] using hnz
    · simp only [wf, Bool.and_eq_true, beq_iff_eq] at hwf
      obtain ⟨⟨hlen, _⟩, _⟩ := hwf
      have : isZeroList e es = false := by simpa [isZero] using hnz
      simp only [beq_eq_false_iff_ne, ne_eq]
      intro h0
      subst h0
      cases es with
      | nil => simp [isZeroList] at this
      | cons w ws => simp at hlen
  case ptr.ptr e p =>
    simp only [rtSafe, Bool.and_eq_true, Bool.not_eq_eq_eq_not, Bool.not_true] at hsafe
    simpa [encHeadZero] using hsafe.1
  case structT.structV ts vs =>
    have : isZeroFields ts vs = false := by simpa [isZero] using hnz
    simp [encHeadZero, this]

theorem zcheck_head_ne (t : Ty) (c : Bool) (b : Nat) (l : List Nat)
    (hb : b ≠ 0) : zcheck t c (b :: l) = none := by
  unfold zcheck
  split
  · simp [readByte, hb]
  · rfl

theorem zcheck_zero (t : Ty) (c : Bool) (l : List Nat)
    (hcomp : tcomparable t = true) :
    zcheck t c (0 :: l) = some (if c then .ok (zeroVal t, l) else .error .setPanic) := by
  unfold zcheck
  rw [if_pos hcomp]
  simp [readByte]

theorem zcheck_not_comparable (t : Ty) (c : Bool) (s : List Nat)
    (hcomp : tcomparable t = false) : zcheck t c s = none := by
  unfold zcheck
  rw [if_neg (by simp [hcomp])]

/-! ## The round-trip theorem

`RTP t v` is the per-value round-trip statement: decoding the encoding
of `v` into a fresh destination (`reflect.New`-fresh or the zero value)
returns exactly `v` and consumes exactly the encoding. -/

def RTP (t : Ty) (v : Val) : Prop :=
  ∀ bs dst r, rtTy t = true → wf t v = true → rtSafe t v = true →
    encodeM t v = .ok bs → (dst = none ∨ dst = some (zeroVal t)) →
    decodeM t dst true (bs ++ r) = .ok (v, r)

theorem zeroValList_length (ts : List Ty) :
    (zeroValList ts).length = ts.length := by
  induction ts with
  | nil => rfl
  | cons t ts ih => simp [zeroValList, ih]

theorem forall2_replicate_none (ts : List Ty) :
    List.Forall₂ (fun t2 d => d = none ∨ d = some (zeroVal t2)) ts
      (List.replicate ts.length none) := by
  induction ts with
  | nil => simp
  | cons t ts ih =>
    simp only [List.length_cons, List.replicate_succ]
    exact List.Forall₂.cons (Or.inl rfl) ih

theorem forall2_map_zero (ts : List Ty) :
    List.Forall₂ (fun t2 d => d = none ∨ d = some (zeroVal t2)) ts
      ((zeroValList ts).map some) := by
  induction ts with
  | nil => simp [zeroValList]
  | cons t ts ih =>
    simp only [zeroValList, List.map_cons]
    exact List.Forall₂.cons (Or.inr rfl) ih

theorem encodeList_cons_ok {e : Ty} {v : Val} {vs : List Val} {bs : List Nat}
    (henc : encodeList e (v :: vs) = .ok bs) :
    ∃ b1 b2, encodeM e v = .ok b1 ∧ encodeList e vs = .ok b2 ∧ bs = b1 ++ b2 := by
  simp only [encodeList] at henc
  cases h1 : encodeM e v with
  | error er =>
    rw [h1] at henc
    exact Except.noConfusion (show (Except.error er : Res (List Nat)) = .ok bs from henc)
  | ok b1 =>
    rw [h1] at henc
    cases h2 : encodeList e vs with
    | error er =>
      rw [h2] at henc
      exact Except.noConfusion (show (Except.error er : Res (List Nat)) = .ok bs from henc)
    | ok b2 =>
      rw [h2] at henc
      have h3 : (Except.ok (b1 ++ b2) : Res (List Nat)) = .ok bs := henc
      injection h3 with h3
      exact ⟨b1, b2, rfl, rfl, h3.symm⟩

theorem encodeEntries_cons_ok {kt vt : Ty} {k v : Val} {es : List (Val × Val)}
    {bs : List Nat}
    (henc : encodeEntries kt vt ((k, v) :: es) = .ok bs) :
    ∃ b1 b2 b3, encodeM kt k = .ok b1 ∧ encodeM vt v = .ok b2 ∧
      encodeEntries kt vt es = .ok b3 ∧ bs = b1 ++ b2 ++ b3 := by
  simp only [encodeEntries] at henc
  cases h1 : encodeM kt k with
  | error er =>
    rw [h1] at henc
    exact Except.noConfusion (show (Except.error er : Res (List Nat)) = .ok bs from henc)
  | ok b1 =>
    rw [h1] at henc
    cases h2 : encodeM vt v with
    | error er =>
      rw [h2] at henc
      exact Except.noConfusion (show (Except.error er : Res (List Nat)) = .ok bs from henc)
    | ok b2 =>
      rw [h2] at henc
      cases h3 : encodeEntries kt vt es with
      | error er =>
        rw [h3] at henc
        exact Except.noConfusion (show (Except.error er : Res (List Nat)) = .ok bs from henc)
      | ok b3 =>
        rw [h3] at henc
        have h4 : (Except.ok (b1 ++ b2 ++ b3) : Res (List Nat)) = .ok bs := henc
        injection h4 with h4
        exact ⟨b1, b2, b3, rfl, rfl, rfl, h4.symm⟩

theorem encodeFields_cons_ok {t : Ty} {ts : List Ty} {v : Val} {vs : List Val}
    {bs : List Nat}
    (henc : encodeFields (t :: ts) (v :: vs) = .ok bs) :
    ∃ b1 b2, encodeM t v = .ok b1 ∧ encodeFields ts vs = .ok b2 ∧ bs = b1 ++ b2 := by
  simp only [encodeFields] at henc
  cases h1 : encodeM t v with
  | error er =>
    rw [h1] at henc
    exact Except.noConfusion (show (Except.error er : Res (List Nat)) = .ok bs from henc)
  | ok b1 =>
    rw [h1] at henc
    cases h2 : encodeFields ts vs with
    | error er =>
      rw [h2] at henc
      exact Except.noConfusion (show (Except.error er : Res (List Nat)) = .ok bs from henc)
    | ok b2 =>
      rw [h2] at henc
      have h3 : (Except.ok (b1 ++ b2) : Res (List Nat)) = .ok bs := henc
      injection h3 with h3
      exact ⟨b1, b2, rfl, rfl, h3.symm⟩

/-- Round trip for the fresh-destination element loop (`sliceMachine`,
`chanMachine` into a fresh channel). -/
theorem RT_list (e : Ty) (vs : List Val) (IH : ∀ v ∈ vs, RTP e v) :
    ∀ bs r, rtTy e = true → wfList e vs = true → rtSafeList e vs = true →
      encodeList e vs = .ok bs →
      decodeList e vs.length (bs ++ r) = .ok (vs, r) := by
  induction vs with
  | nil =>
    intro bs r _ _ _ henc
    have hbs : bs = [] := by simpa [encodeList] using henc.symm
    subst hbs
    simp [decodeList]
  | cons v vs ih =>
    intro bs r hrt hwf hsafe henc
    obtain ⟨b1, b2, h1, h2, hbs⟩ := encodeList_cons_ok henc
    subst hbs
    simp only [wfList, Bool.and_eq_true] at hwf
    simp only [rtSafeList, Bool.and_eq_true] at hsafe
    have hdec := IH v (by simp) b1 none (b2 ++ r) hrt hwf.1 hsafe.1 h1 (Or.inl rfl)
    have hrest := ih (fun w hw => IH w (by simp [hw])) b2 r hrt hwf.2 hsafe.2 h2
    rw [List.length_cons]
    simp only [decodeList]
    rw [List.append_assoc, hdec]
    simp [hrest]

/-- Round trip for the per-slot element loop of `arrayMachine`. -/
theorem RT_elems (e : Ty) (vs : List Val) (IH : ∀ v ∈ vs, RTP e v) :
    ∀ bs r dsts, rtTy e = true → wfList e vs = true → rtSafeList e vs = true →
      encodeList e vs = .ok bs →
      dsts.length = vs.length →
      (∀ d ∈ dsts, d = none ∨ d = some (zeroVal e)) →
      decodeElems e dsts true (bs ++ r) = .ok (vs, r) := by
  induction vs with
  | nil =>
    intro bs r dsts _ _ _ henc hlen _
    have hbs : bs = [] := by simpa [encodeList] using henc.symm
    subst hbs
    have : dsts = [] := List.length_eq_zero.mp hlen
    subst this
    simp [decodeElems]
  | cons v vs ih =>
    intro bs r dsts hrt hwf hsafe henc hlen hdsts
    obtain ⟨b1, b2, h1, h2, hbs⟩ := encodeList_cons_ok henc
    subst hbs
    cases dsts with
    | nil => simp at hlen
    | cons d ds =>
      simp only [wfList, Bool.and_eq_true] at hwf
      simp only [rtSafeList, Bool.and_eq_true] at hsafe
      have hdec := IH v (by simp) b1 d (b2 ++ r) hrt hwf.1 hsafe.1 h1
        (hdsts d (by simp))
      have hrest := ih (fun w hw => IH w (by simp [hw])) b2 r ds hrt hwf.2 hsafe.2 h2
        (by simpa using hlen) (fun d2 hd2 => hdsts d2 (by simp [hd2]))
      simp only [decodeElems]
      rw [List.append_assoc, hdec]
      simp [hrest]

/-- Round trip for `mapMachine`'s entry loop. -/
theorem RT_entries (kt vt : Ty) (es : List (Val × Val))
    (IHk : ∀ p ∈ es, RTP kt p.1) (IHv : ∀ p ∈ es, RTP vt p.2) :
    ∀ bs r, rtTy kt = true → rtTy vt = true →
      wfEntries kt vt es = true → rtSafeEntries kt vt es = true →
      encodeEntries kt vt es = .ok bs →
      decodeEntries kt vt es.length (bs ++ r) = .ok (es, r) := by
  induction es with
  | nil =>
    intro bs r _ _ _ _ henc
    have hbs : bs = [] := by simpa [encodeEntries] using henc.symm
    subst hbs
    simp [decodeEntries]
  | cons p es ih =>
    obtain ⟨k, v⟩ := p
    intro bs r hrtk hrtv hwf hsafe henc
    obtain ⟨b1, b2, b3, h1, h2, h3, hbs⟩ := encodeEntries_cons_ok henc
    subst hbs
    simp only [wfEntries, Bool.and_eq_true] at hwf
    simp only [rtSafeEntries, Bool.and_eq_true] at hsafe
    have hdk := IHk (k, v) (by simp) b1 none (b2 ++ (b3 ++ r)) hrtk hwf.1.1 hsafe.1.1 h1
      (Or.inl rfl)
    have hdv := IHv (k, v) (by simp) b2 none (b3 ++ r) hrtv hwf.1.2 hsafe.1.2 h2
      (Or.inl rfl)
    have hrest := ih (fun q hq => IHk q (by simp [hq])) (fun q hq => IHv q (by simp [hq]))
      b3 r hrtk hrtv hwf.2 hsafe.2 h3
    rw [List.length_cons]
    simp only [decodeEntries]
    rw [List.append_assoc, List.append_assoc, hdk]
    simp [hdv, hrest]

/-- Round trip for `structMachine`'s field loop. -/
theorem RT_fields (ts : List Ty) (vs : List Val)
    (IH : ∀ t2 v2, v2 ∈ vs → RTP t2 v2) :
    ∀ bs r dsts, rtTyList ts = true → wfFields ts vs = true →
      rtSafeFields ts vs = true →
      encodeFields ts vs = .ok bs →
      List.Forall₂ (fun t2 d => d = none ∨ d = some (zeroVal t2)) ts dsts →
      decodeFields ts dsts true (bs ++ r) = .ok (vs, r) := by
  induction ts generalizing vs with
  | nil =>
    intro bs r dsts _ hwf _ henc hf
    cases vs with
    | cons w ws => exact Bool.noConfusion hwf
    | nil =>
      have hbs : bs = [] := by simpa [encodeFields] using henc.symm
      subst hbs
      cases hf
      simp [decodeFields]
  | cons t ts ih =>
    intro bs r dsts hrt hwf hsafe henc hf
    cases vs with
    | nil => exact Bool.noConfusion hwf
    | cons v vs =>
      obtain ⟨b1, b2, h1, h2, hbs⟩ := encodeFields_cons_ok henc
      subst hbs
      cases hf with
      | cons hd htl =>
        rename_i d ds
        simp only [rtTyList, Bool.and_eq_true] at hrt
        simp only [wfFields, Bool.and_eq_true] at hwf
        simp only [rtSafeFields, Bool.and_eq_true] at hsafe
        have hdec := IH t v (by simp) b1 d (b2 ++ r) hrt.1 hwf.1 hsafe.1 h1 hd
        have hrest := ih vs (fun t2 w hw => IH t2 w (by simp [hw])) b2 r ds
          hrt.2 hwf.2 hsafe.2 h2 htl
        simp only [decodeFields]
        rw [List.append_assoc, hdec]
        simp [hrest]

theorem readFull_append (l1 l2 : List Nat) :
    readFull l1.length (l1 ++ l2) = .ok (l1, l2) := by
  unfold readFull
  rw [if_pos (by simp), List.take_left, List.drop_left]

/-- The `compareMachine` prelude passes through (peek-and-unread) on the
encoding of any suitable non-zero value. -/
theorem zcheck_enc_nonzero (t : Ty) (v : Val) (bs : List Nat) (c : Bool)
    (hwf : wf t v = true) (hsafe : rtSafe t v = true)
    (hnz : tcomparable t = true → isZero t v = false)
    (henc : encodeM t v = .ok bs) (r : List Nat) :
    zcheck t c (bs ++ r) = none := by
  by_cases hcomp : tcomparable t
  · obtain ⟨b, l, hb, hiff⟩ := encHead (vsize v) t v le_rfl bs hwf henc
    have hzf := encHeadZero_false t v hcomp hwf hsafe (hnz hcomp)
    have hbne : b ≠ 0 := by
      intro h0
      rw [hzf] at hiff
      simpa using hiff.mp h0
    rw [hb, List.cons_append]
    exact zcheck_head_ne t c b (l ++ r) hbne
  · exact zcheck_not_comparable t c _ (by simpa using hcomp)

theorem encodeM_array_ok {n : Nat} {e : Ty} {es : List Val} {bs : List Nat}
    (hz : (tcomparable e && isZeroList e es) = false)
    (henc : encodeM (.array n e) (.array es) = .ok bs) :
    ∃ eb, encodeList e es = .ok eb ∧ bs = putUvarint n ++ eb := by
  simp only [encodeM] at henc
  rw [if_neg (by simp [hz])] at henc
  cases h : encodeList e es with
  | error er =>
    rw [h] at henc
    exact Except.noConfusion (show (Except.error er : Res (List Nat)) = .ok bs from henc)
  | ok eb =>
    rw [h] at henc
    have h2 : (Except.ok (putUvarint n ++ eb) : Res (List Nat)) = .ok bs := henc
    injection h2 with h2
    exact ⟨eb, rfl, h2.symm⟩

theorem encodeM_slice_ok {e : Ty} {es : List Val} {bs : List Nat}
    (henc : encodeM (.slice e) (.slice es) = .ok bs) :
    ∃ eb, encodeList e es = .ok eb ∧ bs = putUvarint es.length ++ eb := by
  simp only [encodeM] at henc
  cases h : encodeList e es with
  | error er =>
    rw [h] at henc
    exact Except.noConfusion (show (Except.error er : Res (List Nat)) = .ok bs from henc)
  | ok eb =>
    rw [h] at henc
    have h2 : (Except.ok (putUvarint es.length ++ eb) : Res (List Nat)) = .ok bs := henc
    injection h2 with h2
    exact ⟨eb, rfl, h2.symm⟩

theorem encodeM_map_ok {kt vt : Ty} {es : List (Val × Val)} {bs : List Nat}
    (henc : encodeM (.mapT kt vt) (.mapV es) = .ok bs) :
    ∃ eb, encodeEntries kt vt es = .ok eb ∧ bs = putUvarint es.length ++ eb := by
  simp only [encodeM] at henc
  cases h : encodeEntries kt vt es with
  | error er =>
    rw [h] at henc
    exact Except.noConfusion (show (Except.error er : Res (List Nat)) = .ok bs from henc)
  | ok eb =>
    rw [h] at henc
    have h2 : (Except.ok (putUvarint es.length ++ eb) : Res (List Nat)) = .ok bs := henc
    injection h2 with h2
    exact ⟨eb, rfl, h2.symm⟩

theorem encodeM_struct_ok {ts : List Ty} {vs : List Val} {bs : List Nat}
    (hz : (tcomparableList ts && isZeroFields ts vs) = false)
    (henc : encodeM (.structT ts) (.structV vs) = .ok bs) :
    ∃ eb, encodeFields ts vs = .ok eb ∧ bs = putUvarint ts.length ++ eb := by
  simp only [encodeM] at henc
  rw [if_neg (by simp [hz])] at henc
  cases h : encodeFields ts vs with
  | error er =>
    rw [h] at henc
    exact Except.noConfusion (show (Except.error er : Res (List Nat)) = .ok bs from henc)
  | ok eb =>
    rw [h] at henc
    have h2 : (Except.ok (putUvarint ts.length ++ eb) : Res (List Nat)) = .ok bs := henc
    injection h2 with h2
    exact ⟨eb, rfl, h2.symm⟩

set_option maxHeartbeats 4000000 in
/-- The round-trip theorem: over the round-trip type families
(primitives, strings, byte slices, arrays, slices, maps, pointers,
structs, nested arbitrarily), decoding the encoding of a round-trip-safe
well-formed value into a fresh destination returns exactly that value
and consumes exactly its encoding. -/
theorem RT (N : Nat) : ∀ (t : Ty) (v : Val), vsize v ≤ N → RTP t v := by
  induction N with
  | zero =>
    intro t v hv
    exfalso
    cases v <;> simp [vsize] at hv <;> omega
  | succ N ih =>
    intro t v hv bs dst r hrt hwf hsafe henc hdst
    cases t <;> cases v <;> (try (exact Bool.noConfusion hwf)) <;>
      (try (exact Bool.noConfusion hrt)) <;> (try (exact Bool.noConfusion hsafe))
    case bool.bool b =>
      cases b
      · have h3 : (Except.ok [0] : Res (List Nat)) = .ok bs := henc
        injection h3 with h3
        subst h3
        simp only [List.cons_append, List.nil_append, decodeM]
        rw [zcheck_zero Ty.bool true r rfl]
        simp [zeroVal]
      · have h3 : (Except.ok [1] : Res (List Nat)) = .ok bs := henc
        injection h3 with h3
        subst h3
        simp only [List.cons_append, List.nil_append, decodeM]
        rw [zcheck_head_ne _ _ _ _ one_ne_zero]
        simp [readByte]
    case int.int i =>
      simp only [wf, Bool.and_eq_true, decide_eq_true_eq] at hwf
      by_cases h0 : i = 0
      · subst h0
        have h3 : (Except.ok [0] : Res (List Nat)) = .ok bs := henc
        injection h3 with h3
        subst h3
        simp only [List.cons_append, List.nil_append, decodeM]
        rw [zcheck_zero Ty.int true r rfl]
        simp [zeroVal]
      · simp only [encodeM] at henc
        rw [if_neg (by simpa using h0)] at henc
        injection henc with henc
        subst henc
        obtain ⟨b, l, hb, hiff⟩ := putUvarint_cons (zigzag i)
        have hbne : b ≠ 0 := fun hb0 => h0 ((zigzag_eq_zero i).mp (hiff.mp hb0))
        simp only [decodeM]
        rw [show zcheck .int true (putVarint i ++ r) = none from by
          rw [putVarint, hb, List.cons_append]
          exact zcheck_head_ne _ _ _ _ hbne]
        rw [readVarint_put i r hwf.1 hwf.2]
        simp
    case uint.uint u =>
      simp only [wf, decide_eq_true_eq] at hwf
      by_cases h0 : u = 0
      · subst h0
        have h3 : (Except.ok [0] : Res (List Nat)) = .ok bs := henc
        injection h3 with h3
        subst h3
        simp only [List.cons_append, List.nil_append, decodeM]
        rw [zcheck_zero Ty.uint true r rfl]
        simp [zeroVal]
      · simp only [encodeM] at henc
        rw [if_neg (by simpa using h0)] at henc
        injection henc with henc
        subst henc
        obtain ⟨b, l, hb, hiff⟩ := putUvarint_cons u
        have hbne : b ≠ 0 := fun hb0 => h0 (hiff.mp hb0)
        simp only [decodeM]
        rw [show zcheck .uint true (putUvarint u ++ r) = none from by
          rw [hb, List.cons_append]
          exact zcheck_head_ne _ _ _ _ hbne]
        rw [readUvarint_put u r hwf]
        simp
    case str.str cs =>
      simp only [wf, Bool.and_eq_true, decide_eq_true_eq] at hwf
      by_cases h0 : cs.isEmpty
      · simp only [encodeM] at henc
        rw [if_pos h0] at henc
        injection henc with henc
        subst henc
        have hcs : cs = [] := by simpa [List.isEmpty_iff] using h0
        subst hcs
        simp only [List.cons_append, List.nil_append, decodeM]
        rw [zcheck_zero Ty.str true r rfl]
        simp [zeroVal]
      · simp only [encodeM] at henc
        rw [if_neg h0] at henc
        injection henc with henc
        subst henc
        obtain ⟨b, l, hb, hiff⟩ := putUvarint_cons cs.length
        have hbne : b ≠ 0 := by
          intro hb0
          have := hiff.mp hb0
          simp [List.length_eq_zero] at this
          simp [this] at h0
        simp only [decodeM]
        rw [show zcheck .str true ((putUvarint cs.length ++ cs) ++ r) = none from by
          rw [List.append_assoc, hb, List.cons_append]
          exact zcheck_head_ne _ _ _ _ hbne]
        rw [List.append_assoc, readUvarint_put cs.length (cs ++ r) hwf.2]
        simp [readFull_append cs r]
    case bytes.bytes cs =>
      simp only [wf, Bool.and_eq_true, decide_eq_true_eq] at hwf
      have h3 : (Except.ok (putUvarint cs.length ++ cs) : Res (List Nat)) = .ok bs := henc
      injection h3 with h3
      subst h3
      simp only [decodeM]
      rw [List.append_assoc, readUvarint_put cs.length (cs ++ r) hwf.2]
      simp [readFull_append cs r]
    case array.array n e es =>
      have hrte : rtTy e = true := by simpa [rtTy] using hrt
      simp only [wf, Bool.and_eq_true, beq_iff_eq, decide_eq_true_eq] at hwf
      obtain ⟨⟨hlen, hn64⟩, hwfl⟩ := hwf
      have hsafel : rtSafeList e es = true := by simpa [rtSafe] using hsafe
      have hwfa : wf (.array n e) (.array es) = true := by
        simp [wf, hlen, hwfl]
        omega
      by_cases hz : (tcomparable e && isZeroList e es) = true
      · simp only [encodeM] at henc
        rw [if_pos hz] at henc
        injection henc with henc
        subst henc
        have hcomp : tcomparable (.array n e) = true := by
          simp only [tcomparable]
          exact (Bool.and_eq_true .. ▸ hz).1
        have hvz : Val.array es = zeroVal (.array n e) := by
          refine isZero_zeroVal (vsize (Val.array es)) _ _ le_rfl hwfa ?_
          simp only [isZero]
          exact (Bool.and_eq_true .. ▸ hz).2
        have hes : es = List.replicate n (zeroVal e) := by
          have h5 := hvz
          simp only [zeroVal] at h5
          injection h5
        rcases hdst with rfl | rfl
        · simp only [List.cons_append, List.nil_append, decodeM]
          rw [zcheck_zero _ _ _ hcomp]
          simp [zeroVal, hes]
        · simp only [zeroVal, List.cons_append, List.nil_append, decodeM]
          rw [zcheck_zero _ _ _ hcomp]
          simp [zeroVal, hes]
      · have hzf : (tcomparable e && isZeroList e es) = false := by simpa using hz
        obtain ⟨eb, hlist, hbs⟩ := encodeM_array_ok hzf henc
        subst hbs
        have hIH : ∀ w ∈ es, RTP e w := by
          intro w hw
          refine ih e w ?_
          have := vsizeList_mem hw
          simp [vsize] at hv
          omega
        have hzc : zcheck (.array n e) true ((putUvarint n ++ eb) ++ r) = none :=
          zcheck_enc_nonzero (.array n e) (.array es) _ _ hwfa hsafe
            (fun hcomp => by
              simp only [isZero]
              simp only [tcomparable] at hcomp
              simpa [hcomp] using hzf) henc r
        rcases hdst with rfl | rfl
        · simp only [decodeM]
          rw [hzc, List.append_assoc, readUvarint_put n (eb ++ r) hn64]
          have helems := RT_elems e es hIH eb r (List.replicate (min n n) none)
            hrte hwfl hsafel hlist (by simp [hlen]) (by
              intro d hd
              exact Or.inl (List.eq_of_mem_replicate hd))
          simp only [helems]
          simp [Nat.min_self]
        · simp only [zeroVal, decodeM]
          rw [hzc, List.append_assoc, readUvarint_put n (eb ++ r) hn64]
          have htake : ((List.replicate n (zeroVal e)).map some).take (min n n) =
              List.replicate n (some (zeroVal e)) := by
            simp [Nat.min_self]
          have helems := RT_elems e es hIH eb r (List.replicate n (some (zeroVal e)))
            hrte hwfl hsafel hlist (by simp [hlen]) (by
              intro d hd
              exact Or.inr (List.eq_of_mem_replicate hd))
          simp only [htake, helems]
          simp [Nat.min_self]
    case slice.slice e es =>
      have hrte : rtTy e = true := by simpa [rtTy] using hrt
      simp only [wf, Bool.and_eq_true, decide_eq_true_eq] at hwf
      obtain ⟨hlen64, hwfl⟩ := hwf
      have hsafel : rtSafeList e es = true := by simpa [rtSafe] using hsafe
      obtain ⟨eb, hlist, hbs⟩ := encodeM_slice_ok henc
      subst hbs
      have hIH : ∀ w ∈ es, RTP e w := by
        intro w hw
        refine ih e w ?_
        have := vsizeList_mem hw
        simp [vsize] at hv
        omega
      simp only [decodeM]
      rw [List.append_assoc, readUvarint_put es.length (eb ++ r) hlen64]
      have hl := RT_list e es hIH eb r hrte hwfl hsafel hlist
      simp [hl]
    case mapT.mapV kt vt es =>
      have hrtk : rtTy kt = true := by
        simp only [rtTy, Bool.and_eq_true] at hrt
        exact hrt.1
      have hrtv : rtTy vt = true := by
        simp only [rtTy, Bool.and_eq_true] at hrt
        exact hrt.2
      simp only [wf, Bool.and_eq_true, decide_eq_true_eq] at hwf
      obtain ⟨hlen64, hwfe⟩ := hwf
      have hsafee : rtSafeEntries kt vt es = true := by simpa [rtSafe] using hsafe
      obtain ⟨eb, hents, hbs⟩ := encodeM_map_ok henc
      subst hbs
      have hIHk : ∀ p ∈ es, RTP kt p.1 := by
        intro p hp
        refine ih kt p.1 ?_
        have := (vsizeEntries_mem (show (p.1, p.2) ∈ es by simpa using hp)).1
        simp [vsize] at hv
        omega
      have hIHv : ∀ p ∈ es, RTP vt p.2 := by
        intro p hp
        refine ih vt p.2 ?_
        have := (vsizeEntries_mem (show (p.1, p.2) ∈ es by simpa using hp)).2
        simp [vsize] at hv
        omega
      simp only [decodeM]
      rw [List.append_assoc, readUvarint_put es.length (eb ++ r) hlen64]
      have he := RT_entries kt vt es hIHk hIHv eb r hrtk hrtv hwfe hsafee hents
      simp [he]
    case ptr.ptrNil e =>
      have h3 : (Except.ok [0] : Res (List Nat)) = .ok bs := henc
      injection h3 with h3
      subst h3
      rcases hdst with rfl | rfl <;>
        simp only [zeroVal, List.cons_append, List.nil_append, decodeM] <;>
        rw [zcheck_zero (Ty.ptr e) true r rfl] <;>
        simp [zeroVal]
    case ptr.ptr e p =>
      have hrte : rtTy e = true := by simpa [rtTy] using hrt
      have hwfp : wf e p = true := by simpa [wf] using hwf
      simp only [rtSafe, Bool.and_eq_true, Bool.not_eq_eq_eq_not, Bool.not_true] at hsafe
      obtain ⟨hhz, hsafep⟩ := hsafe
      have hencp : encodeM e p = .ok bs := henc
      obtain ⟨b, l, hb, hiff⟩ := encHead (vsize p) e p le_rfl bs hwfp hencp
      have hbne : b ≠ 0 := by
        intro h0
        rw [hhz] at hiff
        simpa using hiff.mp h0
      have hdec := ih e p (by simp [vsize] at hv; omega) bs none r hrte hwfp hsafep
        hencp (Or.inl rfl)
      have hzc : zcheck (.ptr e) true (bs ++ r) = none := by
        rw [hb, List.cons_append]
        exact zcheck_head_ne _ _ _ _ hbne
      rcases hdst with rfl | rfl <;>
        simp only [zeroVal, decodeM] <;>
        rw [hzc, hb, List.cons_append, readByte] <;>
        simp only [if_neg hbne] <;>
        rw [← List.cons_append, ← hb, hdec] <;>
        simp
    case structT.structV ts vs =>
      have hrts : rtTyList ts = true := by simpa [rtTy] using hrt
      simp only [wf, Bool.and_eq_true, decide_eq_true_eq] at hwf
      obtain ⟨hlen64, hwff⟩ := hwf
      have hsafef : rtSafeFields ts vs = true := by simpa [rtSafe] using hsafe
      have hwfs : wf (.structT ts) (.structV vs) = true := by
        simp [wf, hwff]
        omega
      by_cases hz : (tcomparableList ts && isZeroFields ts vs) = true
      · simp only [encodeM] at henc
        rw [if_pos hz] at henc
        injection henc with henc
        subst henc
        have hcomp : tcomparable (.structT ts) = true := by
          simp only [tcomparable]
          exact (Bool.and_eq_true .. ▸ hz).1
        have hvz : Val.structV vs = zeroVal (.structT ts) := by
          refine isZero_zeroVal (vsize (Val.structV vs)) _ _ le_rfl hwfs ?_
          simp only [isZero]
          exact (Bool.and_eq_true .. ▸ hz).2
        have hvs : vs = zeroValList ts := by
          have h5 := hvz
          simp only [zeroVal] at h5
          injection h5
        rcases hdst with rfl | rfl
        · simp only [List.cons_append, List.nil_append, decodeM]
          rw [zcheck_zero _ _ _ hcomp]
          simp [zeroVal, hvs]
        · simp only [zeroVal, List.cons_append, List.nil_append, decodeM]
          rw [zcheck_zero _ _ _ hcomp]
          simp [zeroVal, hvs]
      · have hzf : (tcomparableList ts && isZeroFields ts vs) = false := by simpa using hz
        obtain ⟨eb, hfields, hbs⟩ := encodeM_struct_ok hzf henc
        subst hbs
        have hIH : ∀ t2 w, w ∈ vs → RTP t2 w := by
          intro t2 w hw
          refine ih t2 w ?_
          have := vsizeList_mem hw
          simp [vsize] at hv
          omega
        have hzc : zcheck (.structT ts) true ((putUvarint ts.length ++ eb) ++ r) = none :=
          zcheck_enc_nonzero (.structT ts) (.structV vs) _ _ hwfs hsafe
            (fun hcomp => by
              simp only [isZero]
              simp only [tcomparable] at hcomp
              simpa [hcomp] using hzf) henc r
        rcases hdst with rfl | rfl
        · simp only [decodeM]
          rw [hzc, List.append_assoc, readUvarint_put ts.length (eb ++ r) hlen64]
          have hflds := RT_fields ts vs hIH eb r (List.replicate ts.length none)
            hrts hwff hsafef hfields (forall2_replicate_none ts)
          simp only [Nat.min_self, List.take_length, hflds]
          simp [List.drop_length, zeroValList]
        · simp only [zeroVal, decodeM]
          rw [hzc, List.append_assoc, readUvarint_put ts.length (eb ++ r) hlen64]
          have hl2 : ((zeroValList ts).map some).length = ts.length := by
            simp [zeroValList_length]
          have htake : ((zeroValList ts).map some).take ts.length =
              (zeroValList ts).map some := by
            rw [← hl2, List.take_length]
          have hflds := RT_fields ts vs hIH eb r ((zeroValList ts).map some)
            hrts hwff hsafef hfields (forall2_map_zero ts)
          have hdrop : (zeroValList ts).drop ts.length = [] := by
            rw [← zeroValList_length ts, List.drop_length]
          simp only [Nat.min_self, List.take_length, htake, hflds, hdrop]
          simp

/-! ## Registry soundness on the round-trip families -/

theorem tyBeq_sound (N : Nat) : ∀ a b, tsize a ≤ N → tyBeq a b = true → a = b := by
  induction N with
  | zero =>
    intro a b ha _
    have := tsize_pos a
    omega
  | succ N ih =>
    intro a b ha hb
    cases a <;> cases b <;> (try exact Bool.noConfusion hb) <;> (try rfl)
    case array.array n e n2 e2 =>
      simp only [tyBeq, Bool.and_eq_true, beq_iff_eq] at hb
      have hs : tsize (Ty.array n e) = 1 + tsize e := rfl
      rw [hb.1, ih e e2 (by omega) hb.2]
    case slice.slice e e2 =>
      simp only [tyBeq] at hb
      have hs : tsize (Ty.slice e) = 1 + tsize e := rfl
      rw [ih e e2 (by omega) hb]
    case mapT.mapT k v k2 v2 =>
      simp only [tyBeq, Bool.and_eq_true] at hb
      have hs : tsize (Ty.mapT k v) = 1 + tsize k + tsize v := rfl
      rw [ih k k2 (by omega) hb.1, ih v v2 (by omega) hb.2]
    case ptr.ptr e e2 =>
      simp only [tyBeq] at hb
      have hs : tsize (Ty.ptr e) = 1 + tsize e := rfl
      rw [ih e e2 (by omega) hb]
    case chan.chan e e2 =>
      simp only [tyBeq] at hb
      have hs : tsize (Ty.chan e) = 3 + tsize e := rfl
      rw [ih e e2 (by omega) hb]
    case structT.structT ts ts2 =>
      simp only [tyBeq] at hb
      have hs : tsize (Ty.structT ts) = 1 + tsizeList ts := rfl
      have key : ∀ l1 l2, tsizeList l1 ≤ N → tyBeqList l1 l2 = true → l1 = l2 := by
        intro l1
        induction l1 with
        | nil =>
          intro l2 _ h2
          cases l2 with
          | nil => rfl
          | cons => exact Bool.noConfusion h2
        | cons t l1 ihl =>
          intro l2 hsz h2
          cases l2 with
          | nil => exact Bool.noConfusion h2
          | cons t2 l2 =>
            simp only [tyBeqList, Bool.and_eq_true] at h2
            have h3 : tsizeList (t :: l1) = 1 + tsize t + tsizeList l1 := rfl
            rw [ih t t2 (by omega) h2.1, ihl l2 (by omega) h2.2]
      rw [key ts ts2 (by omega) hb]

/-- The registry invariant: every cached machine is the machine of its
own type (true of the empty registry, and preserved by `register`). -/
def regOKp (g : Reg) : Prop :=
  ∀ t m, regFind g t = some m → m = some t

theorem regOKp_nil : regOKp [] := by
  intro t m hf
  simp [regFind] at hf

theorem regOKp_cons {g : Reg} (t : Ty) (h : regOKp g) :
    regOKp ((t, some t) :: g) := by
  intro t2 m hf
  simp only [regFind] at hf
  by_cases hb : tyBeq t2 t
  · rw [if_pos hb] at hf
    injection hf with hf
    rw [← hf, tyBeq_sound (tsize t2) t2 t le_rfl hb]
  · rw [if_neg hb] at hf
    exact h t2 m hf

/-- On the round-trip type families, `register` always succeeds, caches
the type's own machine, and preserves the registry invariant. -/
theorem register_ok (N : Nat) :
    (∀ t g, tsize t ≤ N → rtTy t = true → regOKp g →
      (register g t).2 = RegOut.machine t ∧ regOKp (register g t).1) ∧
    (∀ ts g, tsizeList ts ≤ N → rtTyList ts = true → regOKp g →
      (registerFields g ts).2 = none ∧ regOKp (registerFields g ts).1) := by
  induction N with
  | zero =>
    constructor
    · intro t g ht
      have := tsize_pos t
      omega
    · intro ts g hts _ hOK
      cases ts with
      | nil =>
        rw [show registerFields g [] = (g, none) from by simp [registerFields]]
        exact ⟨rfl, hOK⟩
      | cons t ts =>
        have h3 : tsizeList (t :: ts) = 1 + tsize t + tsizeList ts := rfl
        have := tsize_pos t
        omega
  | succ N ihN =>
    obtain ⟨ihr, ihf⟩ := ihN
    have hr : ∀ t g, tsize t ≤ N + 1 → rtTy t = true → regOKp g →
        (register g t).2 = RegOut.machine t ∧ regOKp (register g t).1 := by
      intro t g ht hrt hOK
      rw [register]
      cases hf : regFind g t with
      | some m =>
        have := hOK t m hf
        subst this
        exact ⟨rfl, hOK⟩
      | none =>
        cases t <;> (try exact Bool.noConfusion hrt)
        case bool =>
          rw [show registerBody g Ty.bool = (g, .machine .bool) from by simp [registerBody]]
          exact ⟨rfl, regOKp_cons _ hOK⟩
        case int =>
          rw [show registerBody g Ty.int = (g, .machine .int) from by simp [registerBody]]
          exact ⟨rfl, regOKp_cons _ hOK⟩
        case uint =>
          rw [show registerBody g Ty.uint = (g, .machine .uint) from by simp [registerBody]]
          exact ⟨rfl, regOKp_cons _ hOK⟩
        case str =>
          rw [show registerBody g Ty.str = (g, .machine .str) from by simp [registerBody]]
          exact ⟨rfl, regOKp_cons _ hOK⟩
        case bytes =>
          rw [show registerBody g Ty.bytes = (g, .machine .bytes) from by simp [registerBody]]
          exact ⟨rfl, regOKp_cons _ hOK⟩
        case array n e =>
          have hs : tsize (Ty.array n e) = 1 + tsize e := rfl
          obtain ⟨h1, h2⟩ := ihr e g (by omega) (by simpa [rtTy] using hrt) hOK
          simp only [registerBody]
          cases hre : register g e with
          | mk g2 ro =>
            rw [hre] at h1 h2
            have h1e : ro = .machine e := h1
            subst h1e
            exact ⟨rfl, regOKp_cons _ h2⟩
        case slice e =>
          have hs : tsize (Ty.slice e) = 1 + tsize e := rfl
          obtain ⟨h1, h2⟩ := ihr e g (by omega) (by simpa [rtTy] using hrt) hOK
          simp only [registerBody]
          cases hre : register g e with
          | mk g2 ro =>
            rw [hre] at h1 h2
            have h1e : ro = .machine e := h1
            subst h1e
            exact ⟨rfl, regOKp_cons _ h2⟩
        case mapT k v =>
          have hs : tsize (Ty.mapT k v) = 1 + tsize k + tsize v := rfl
          simp only [rtTy, Bool.and_eq_true] at hrt
          obtain ⟨h1, h2⟩ := ihr k g (by omega) hrt.1 hOK
          cases hre : register g k with
          | mk g2 ro =>
            rw [hre] at h1 h2
            have h1e : ro = .machine k := h1
            subst h1e
            obtain ⟨h3, h4⟩ := ihr v g2 (by omega) hrt.2 h2
            cases hre2 : register g2 v with
            | mk g3 ro2 =>
              rw [hre2] at h3 h4
              have h3e : ro2 = .machine v := h3
              subst h3e
              rw [show registerBody g (Ty.mapT k v) = (g3, .machine (Ty.mapT k v)) from by
                simp [registerBody, hre, hre2]]
              exact ⟨rfl, regOKp_cons _ h4⟩
        case ptr e =>
          have hs : tsize (Ty.ptr e) = 1 + tsize e := rfl
          obtain ⟨h1, h2⟩ := ihr e g (by omega) (by simpa [rtTy] using hrt) hOK
          simp only [registerBody]
          cases hre : register g e with
          | mk g2 ro =>
            rw [hre] at h1 h2
            have h1e : ro = .machine e := h1
            subst h1e
            exact ⟨rfl, regOKp_cons _ h2⟩
        case structT ts =>
          have hs : tsize (Ty.structT ts) = 1 + tsizeList ts := rfl
          obtain ⟨h1, h2⟩ := ihf ts g (by omega) (by simpa [rtTy] using hrt) hOK
          simp only [registerBody]
          cases hre : registerFields g ts with
          | mk g2 ro =>
            rw [hre] at h1 h2
            have h1e : ro = none := h1
            subst h1e
            exact ⟨rfl, regOKp_cons _ h2⟩
    refine ⟨hr, ?_⟩
    intro ts
    induction ts with
    | nil =>
      intro g _ _ hOK
      rw [show registerFields g [] = (g, none) from by simp [registerFields]]
      exact ⟨rfl, hOK⟩
    | cons t ts ihl =>
      intro g hts hrt hOK
      simp only [rtTyList, Bool.and_eq_true] at hrt
      have h3 : tsizeList (t :: ts) = 1 + tsize t + tsizeList ts := rfl
      obtain ⟨h1, h2⟩ := hr t g (by omega) hrt.1 hOK
      simp only [registerFields]
      cases hre : register g t with
      | mk g2 ro =>
        rw [hre] at h1 h2
        have h1e : ro = .machine t := h1
        subst h1e
        exact ihl g2 (by omega) hrt.2 h2

/-! ## Totality of encoding on the round-trip families -/

theorem encodeList_total (e : Ty) (vs : List Val)
    (IH : ∀ v ∈ vs, ∃ bs, encodeM e v = .ok bs) :
    ∃ eb, encodeList e vs = .ok eb := by
  induction vs with
  | nil => exact ⟨[], rfl⟩
  | cons v vs ih =>
    obtain ⟨b1, h1⟩ := IH v (List.mem_cons_self v vs)
    obtain ⟨b2, h2⟩ := ih (fun w hw => IH w (List.mem_cons_of_mem v hw))
    refine ⟨b1 ++ b2, ?_⟩
    have he : encodeList e (v :: vs) =
        (do pure ((← encodeM e v) ++ (← encodeList e vs)) : Res (List Nat)) := rfl
    rw [he, h1, h2]
    rfl

theorem encodeEntries_total (kt vt : Ty) (es : List (Val × Val))
    (IHk : ∀ p ∈ es, ∃ bs, encodeM kt p.1 = .ok bs)
    (IHv : ∀ p ∈ es, ∃ bs, encodeM vt p.2 = .ok bs) :
    ∃ eb, encodeEntries kt vt es = .ok eb := by
  induction es with
  | nil => exact ⟨[], rfl⟩
  | cons p es ih =>
    obtain ⟨k, v⟩ := p
    obtain ⟨b1, h1⟩ := IHk (k, v) (List.mem_cons_self _ es)
    obtain ⟨b2, h2⟩ := IHv (k, v) (List.mem_cons_self _ es)
    obtain ⟨b3, h3⟩ := ih (fun q hq => IHk q (List.mem_cons_of_mem _ hq))
      (fun q hq => IHv q (List.mem_cons_of_mem _ hq))
    refine ⟨b1 ++ b2 ++ b3, ?_⟩
    have he : encodeEntries kt vt ((k, v) :: es) =
        (do pure ((← encodeM kt k) ++ (← encodeM vt v) ++ (← encodeEntries kt vt es)) :
          Res (List Nat)) := rfl
    rw [he, h1, h2, h3]
    rfl

theorem wfEntries_mem {kt vt : Ty} {es : List (Val × Val)}
    (h : wfEntries kt vt es = true) :
    ∀ p ∈ es, wf kt p.1 = true ∧ wf vt p.2 = true := by
  induction es with
  | nil => simp
  | cons q es ih =>
    obtain ⟨qk, qv⟩ := q
    simp only [wfEntries, Bool.and_eq_true] at h
    intro p hp
    rcases List.mem_cons.mp hp with rfl | h2
    · exact ⟨h.1.1, h.1.2⟩
    · exact ih h.2 p h2

theorem encodeFields_total (ts : List Ty) (vs : List Val)
    (IH : ∀ t2 v2, v2 ∈ vs → rtTy t2 = true → wf t2 v2 = true →
      ∃ bs, encodeM t2 v2 = .ok bs)
    (hrt : rtTyList ts = true) (hwf : wfFields ts vs = true) :
    ∃ eb, encodeFields ts vs = .ok eb := by
  induction ts generalizing vs with
  | nil => exact ⟨[], by cases vs <;> rfl⟩
  | cons t ts ih =>
    cases vs with
    | nil => exact Bool.noConfusion hwf
    | cons v vs =>
      simp only [rtTyList, Bool.and_eq_true] at hrt
      simp only [wfFields, Bool.and_eq_true] at hwf
      obtain ⟨b1, h1⟩ := IH t v (List.mem_cons_self v vs) hrt.1 hwf.1
      obtain ⟨b2, h2⟩ := ih vs
        (fun t2 w hw ha hb => IH t2 w (List.mem_cons_of_mem v hw) ha hb)
        hrt.2 hwf.2
      refine ⟨b1 ++ b2, ?_⟩
      have he : encodeFields (t :: ts) (v :: vs) =
          (do pure ((← encodeM t v) ++ (← encodeFields ts vs)) : Res (List Nat)) := rfl
      rw [he, h1, h2]
      rfl

/-- On the round-trip families encoding never fails (the only failure,
blocking on an open channel, needs a channel in the type). -/
theorem encode_ok (N : Nat) : ∀ t v, vsize v ≤ N → rtTy t = true → wf t v = true →
    ∃ bs, encodeM t v = .ok bs := by
  induction N with
  | zero =>
    intro t v hv
    exfalso
    cases v <;> simp [vsize] at hv <;> omega
  | succ N ih =>
    intro t v hv hrt hwf
    cases t <;> cases v <;> (try exact Bool.noConfusion hwf) <;>
      (try exact Bool.noConfusion hrt) <;> (try exact ⟨_, rfl⟩)
    case array.array n e es =>
      by_cases hz : (tcomparable e && isZeroList e es) = true
      · exact ⟨[0], by simp [encodeM, hz]⟩
      · have hrte : rtTy e = true := by simpa [rtTy] using hrt
        simp only [wf, Bool.and_eq_true, beq_iff_eq, decide_eq_true_eq] at hwf
        obtain ⟨eb, heb⟩ := encodeList_total e es (fun w hw => by
          refine ih e w ?_ hrte (wfList_mem hwf.2 w hw)
          have := vsizeList_mem hw
          simp [vsize] at hv
          omega)
        refine ⟨putUvarint n ++ eb, ?_⟩
        simp only [encodeM, if_neg hz]
        rw [heb]
        rfl
    case slice.slice e es =>
      have hrte : rtTy e = true := by simpa [rtTy] using hrt
      simp only [wf, Bool.and_eq_true, decide_eq_true_eq] at hwf
      obtain ⟨eb, heb⟩ := encodeList_total e es (fun w hw => by
        refine ih e w ?_ hrte (wfList_mem hwf.2 w hw)
        have := vsizeList_mem hw
        simp [vsize] at hv
        omega)
      refine ⟨putUvarint es.length ++ eb, ?_⟩
      simp only [encodeM]
      rw [heb]
      rfl
    case mapT.mapV kt vt es =>
      simp only [rtTy, Bool.and_eq_true] at hrt
      simp only [wf, Bool.and_eq_true, decide_eq_true_eq] at hwf
      obtain ⟨eb, heb⟩ := encodeEntries_total kt vt es
        (fun p hp => by
          refine ih kt p.1 ?_ hrt.1 (wfEntries_mem hwf.2 p hp).1
          have := (vsizeEntries_mem (show (p.1, p.2) ∈ es by simpa using hp)).1
          simp [vsize] at hv
          omega)
        (fun p hp => by
          refine ih vt p.2 ?_ hrt.2 (wfEntries_mem hwf.2 p hp).2
          have := (vsizeEntries_mem (show (p.1, p.2) ∈ es by simpa using hp)).2
          simp [vsize] at hv
          omega)
      refine ⟨putUvarint es.length ++ eb, ?_⟩
      simp only [encodeM]
      rw [heb]
      rfl
    case ptr.ptr e p =>
      have hrte : rtTy e = true := by simpa [rtTy] using hrt
      have hwfp : wf e p = true := by simpa [wf] using hwf
      obtain ⟨bs, hbs⟩ := ih e p (by simp [vsize] at hv; omega) hrte hwfp
      exact ⟨bs, hbs⟩
    case structT.structV ts vs =>
      by_cases hz : (tcomparableList ts && isZeroFields ts vs) = true
      · exact ⟨[0], by simp [encodeM, hz]⟩
      · have hrts : rtTyList ts = true := by simpa [rtTy] using hrt
        simp only [wf, Bool.and_eq_true, decide_eq_true_eq] at hwf
        obtain ⟨eb, heb⟩ := encodeFields_total ts vs (fun t2 w hw hrt2 hwf2 => by
          refine ih t2 w ?_ hrt2 hwf2
          have := vsizeList_mem hw
          simp [vsize] at hv
          omega) hrts hwf.2
        refine ⟨putUvarint ts.length ++ eb, ?_⟩
        simp only [encodeM, if_neg hz]
        rw [heb]
        rfl

/-- `compareMachine.encode` emits exactly the single byte 0 on the zero
value of any comparable type. -/
theorem encode_isZero (t : Ty) (v : Val) (hcomp : tcomparable t = true)
    (hz : isZero t v = true) (hwf : wf t v = true) : encodeM t v = .ok [0] := by
  cases t <;> cases v <;> (try exact Bool.noConfusion hwf) <;>
    (try exact Bool.noConfusion hcomp) <;> (try exact Bool.noConfusion hz) <;>
    (try rfl)
  case bool.bool b =>
    cases b
    · rfl
    · exact Bool.noConfusion hz
  case int.int i =>
    simp only [isZero, beq_iff_eq] at hz
    simp [encodeM, hz]
  case uint.uint u =>
    simp only [isZero, beq_iff_eq] at hz
    simp [encodeM, hz]
  case str.str cs =>
    simp only [isZero] at hz
    simp [encodeM, hz]
  case array.array n e es =>
    simp only [isZero] at hz
    have hce : tcomparable e = true := by simpa [tcomparable] using hcomp
    simp [encodeM, hce, hz]
  case structT.structV ts vs =>
    simp only [isZero] at hz
    have hcs : tcomparableList ts = true := by simpa [tcomparable] using hcomp
    simp [encodeM, hcs, hz]

theorem zeroValList_append (ts1 ts2 : List Ty) :
    zeroValList (ts1 ++ ts2) = zeroValList ts1 ++ zeroValList ts2 := by
  induction ts1 with
  | nil => rfl
  | cons t ts ih => simp [zeroValList, ih]

/-- `sliceMachine.decode` produces exactly as many elements as the
stored count (`reflect.MakeSlice(t, l, l)`). -/
theorem decodeList_length (e : Ty) (l : Nat) : ∀ s es s2,
    decodeList e l s = .ok (es, s2) → es.length = l := by
  induction l with
  | zero =>
    intro s es s2 h
    simp only [decodeList] at h
    simp only [Except.ok.injEq, Prod.mk.injEq] at h
    simp [← h.1]
  | succ l ih =>
    intro s es s2 h
    simp only [decodeList] at h
    cases hd : decodeM e none true s with
    | error er =>
      simp only [hd] at h
      exact Except.noConfusion h
    | ok p =>
      obtain ⟨v, s1⟩ := p
      simp only [hd] at h
      cases hr : decodeList e l s1 with
      | error er =>
        simp only [hr] at h
        exact Except.noConfusion h
      | ok q =>
        obtain ⟨vs, s3⟩ := q
        simp only [hr, Except.ok.injEq, Prod.mk.injEq] at h
        have hlen := ih s1 vs s3 hr
        simp [← h.1, hlen]

/-- The deferred `recover` only returns `noPanic` failures as errors. -/
theorem runRecover_err {α : Type} (r : Res α) (e : Fail)
    (h : runRecover r = .err e) : e.returned = true := by
  cases r with
  | ok a => exact Outcome.noConfusion h
  | error er =>
    cases er <;> (try exact Outcome.noConfusion h) <;>
      · have h2 : Outcome.err _ = Outcome.err e := h
        injection h2 with h2
        rw [← h2]
        rfl

/-- Every panic escaping the deferred `recover` is a non-`noPanic` one. -/
theorem runRecover_panicked {α : Type} (r : Res α) (e : Fail)
    (h : runRecover r = .panicked e) : e.returned = false := by
  cases r with
  | ok a => exact Outcome.noConfusion h
  | error er =>
    cases er <;> (try exact Outcome.noConfusion h) <;>
      · have h2 : Outcome.panicked _ = Outcome.panicked e := h
        injection h2 with h2
        rw [← h2]
        rfl

/-! ## The claims -/

/-- C4: `EncodeValue` never assigns the buffering adapter to `e.w`, so
whenever the destination is a plain `io.Writer` and the machine would
write anything, the call dies with a nil-pointer panic instead of
completing the encode. -/
theorem C4_nil_writer (g : Reg) (t : Ty) (v : Val) (m : Ty)
    (hm : (getMachine g t).2 = .machine m)
    (hnd : encodeM m v ≠ .error .diverge) :
    (encodeValue g .plain t v).2 = .nilWriterPanic := by
  unfold encodeValue
  cases hg : getMachine g t with
  | mk g2 ro =>
    rw [hg] at hm
    have hm2 : ro = .machine m := hm
    subst hm2
    cases he : encodeM m v with
    | ok bs => simp [he]
    | error er =>
      cases er <;> simp [he] <;> exact absurd he hnd

/-- C4 witness: encoding `int 0` to a plain writer panics. -/
theorem C4_nil_writer_witness :
    (encodeValue [] .plain .int (.int 0)).2 = .nilWriterPanic :=
  C4_nil_writer [] .int (.int 0) .int
    (by simp [getMachine, regFind, register, registerBody])
    (by simp [encodeM])

/-- C5 (amended): the first use of a bare function type panics with
`TypeError` naming it and caches a nil machine as a permanent rejection;
every later use of that type panics through the cached nil machine
(a nil-pointer method call), not with a `TypeError`. -/
theorem C5_type_error (g : Reg) (v : Val) (hnew : regFind g .func = none) :
    (encodeValue g .direct .func v).2 = .typeErrorPanic .func ∧
    (encodeValue g .direct .func v).1 = (.func, none) :: g ∧
    ∀ v2 w, (encodeValue ((.func, none) :: g) w .func v2).2 = .nilMachinePanic := by
  have hreg : register g .func = ((.func, none) :: g, .typeErr .func) := by
    rw [register, hnew]
    rw [show registerBody g Ty.func = (g, .typeErr .func) from by simp [registerBody]]
  have hfind : regFind ((Ty.func, none) :: g) .func = some none := by
    simp [regFind, tyBeq]
  refine ⟨?_, ?_, ?_⟩
  · simp [encodeValue, getMachine, hnew, hreg]
  · simp [encodeValue, getMachine, hnew, hreg]
  · intro v2 w
    cases w <;> simp [encodeValue, getMachine, hfind]

/-- C5 counterexample: the second attempt with the same function type
panics with a nil-machine method call, which is not a `TypeError` —
the claim's "re-fails with a type error" does not hold. -/
theorem C5_counterexample :
    (encodeValue ((encodeValue [] .direct .func .fn).1) .direct .func .fn).2 =
      .nilMachinePanic ∧
    ∀ t2, (Outcome.nilMachinePanic : Outcome (List Nat)) ≠ .typeErrorPanic t2 := by
  constructor
  · simp [encodeValue, getMachine, regFind, register, registerBody, tyBeq]
  · intro t2
    exact fun h => Outcome.noConfusion h

/-- C5 witness: the fresh registry run. -/
theorem C5_type_error_witness :
    (encodeValue [] .direct .func .fn).2 = .typeErrorPanic .func ∧
    (encodeValue [] .direct .func .fn).1 = (.func, none) :: [] ∧
    ∀ v2 w, (encodeValue ((.func, none) :: []) w .func v2).2 = .nilMachinePanic :=
  C5_type_error [] .fn rfl

/-- C9: `binary.PutUvarint` encodes 0 as exactly the single byte 0, and
every non-zero unsigned value's first emitted byte is non-zero. -/
theorem C9_varint_head :
    putUvarint 0 = [0] ∧
    ∀ u : Nat, u ≠ 0 → ∃ b l, putUvarint u = b :: l ∧ b ≠ 0 := by
  refine ⟨putUvarint_zero, ?_⟩
  intro u hu
  obtain ⟨b, l, hb, hiff⟩ := putUvarint_cons u
  exact ⟨b, l, hb, fun h0 => hu (hiff.mp h0)⟩

/-- C9 witness: the varint head facts at 0 and 300. -/
theorem C9_varint_head_witness :
    putUvarint 0 = [0] ∧ ∃ b l, putUvarint 300 = b :: l ∧ b ≠ 0 :=
  ⟨C9_varint_head.1, C9_varint_head.2 300 (by decide)⟩

/-- C10: `sliceMachine.decode` always produces a freshly built non-nil
slice whose length is the stored count, whatever the destination held;
and a nil slice encodes as the single byte 0 and decodes back to the
empty non-nil slice. -/
theorem C10_slice_fresh (e : Ty) (l : Nat) (s s2 : List Nat) (es : List Val)
    (dst : Option Val) (hl : l < 2 ^ 64)
    (hdec : decodeList e l s = .ok (es, s2)) :
    decodeM (.slice e) dst true (putUvarint l ++ s) = .ok (.slice es, s2) ∧
    es.length = l ∧
    encodeM (.slice e) .sliceNil = .ok [0] ∧
    decodeM (.slice e) dst true [0] = .ok (.slice [], []) ∧
    Val.slice [] ≠ .sliceNil := by
  refine ⟨?_, decodeList_length e l s es s2 hdec, ?_, ?_, fun h => Val.noConfusion h⟩
  · simp only [decodeM]
    rw [readUvarint_put l s hl]
    simp [hdec]
  · simp [encodeM, putUvarint]
  · simp only [decodeM]
    rw [show readUvarint [0] = .ok (0, []) from by simp [readUvarint, readUvarintLoop]]
    simp [decodeList]

/-- C10 witness: one stored `uint` element. -/
theorem C10_slice_fresh_witness :
    decodeM (.slice .uint) none true (putUvarint 1 ++ [5]) =
      .ok (.slice [.uint 5], []) ∧
    ([Val.uint 5] : List Val).length = 1 ∧
    encodeM (.slice .uint) .sliceNil = .ok [0] ∧
    decodeM (.slice .uint) none true [0] = .ok (.slice [], []) ∧
    Val.slice [] ≠ .sliceNil :=
  C10_slice_fresh .uint 1 [5] [] [.uint 5] none (by decide)
    (by simp [decodeList, decodeM, zcheck, readByte, readUvarint, readUvarintLoop])

end Enc
